import Mathlib

set_option maxRecDepth 8000

-- Verification of the Kotlin-Multiplatform Chinese-string extraction tool
-- (helper.py / chinese_string_extractor.py).  Strings are modelled as
-- `List Char`; file contents are whole strings; the regex operations used by
-- the tool (all on literal, `re.escape`d patterns, or simple scanning
-- patterns) are modelled by explicit scanners below.

namespace StrTool

-- ===== basic character / string utilities =====

/-- The single-quote character (U+0027). -/
def squote : Char := Char.ofNat 39

/-- The left brace character (U+007B). -/
def lbrace : Char := Char.ofNat 123

/-- The right brace character (U+007D). -/
def rbrace : Char := Char.ofNat 125

/-- A character is one of the two string-literal delimiters used by the
replacement patterns of `replace_strings_in_file_advanced`. -/
def isQuote (c : Char) : Prop := c = '"' ∨ c = squote

instance (c : Char) : Decidable (isQuote c) := by
  unfold isQuote; infer_instance

/-- No character of `l` is a quote delimiter. -/
def quoteFree (l : List Char) : Prop := ∀ c ∈ l, ¬ isQuote c

instance (l : List Char) : Decidable (quoteFree l) := by
  unfold quoteFree; infer_instance

/-- Python `str.strip()`: remove leading and trailing whitespace. -/
def strip (l : List Char) : List Char :=
  ((l.dropWhile Char.isWhitespace).reverse.dropWhile Char.isWhitespace).reverse

/-- Python regex `\w`: ASCII alphanumerics, underscore, and (as the relevant
part of the unicode word class for this tool's inputs) CJK ideographs. -/
def isWordChar (c : Char) : Bool :=
  c.isAlphanum || c = '_' || (0x4e00 ≤ c.toNat && c.toNat ≤ 0x9fff)

/-- A character in the CJK unified ideograph range `一`-`鿿`. -/
def isCJK (c : Char) : Bool := 0x4e00 ≤ c.toNat && c.toNat ≤ 0x9fff

/-- Model of `contains_chinese`: the text has at least one CJK ideograph. -/
def containsChinese (l : List Char) : Bool := l.any isCJK

/-- Model of `re.match("^[A-Za-z_][A-Za-z0-9_]*$", s)`: `s` is a bare ASCII
identifier. -/
def isIdent (l : List Char) : Bool :=
  match l with
  | [] => false
  | c :: rest => (c.isAlpha || c = '_') && rest.all (fun d => d.isAlphanum || d = '_')

/-- Join chunks with a separator (`sep.join(chunks)`; also used to state how
`re.subn` rebuilds a string from the unmatched gaps). -/
def joinSep (sep : List Char) : List (List Char) → List Char
  | [] => []
  | [u] => u
  | u :: v :: us => u ++ sep ++ joinSep sep (v :: us)

/-- Python `str.split(sep)` for a one-character separator. -/
def splitOnChar (sep : Char) : List Char → List (List Char)
  | [] => [[]]
  | c :: rest =>
    if c = sep then [] :: splitOnChar sep rest
    else
      match splitOnChar sep rest with
      | [] => [[c]]
      | l :: ls => (c :: l) :: ls

/-- Python `content.split('\n')`. -/
def splitLines (l : List Char) : List (List Char) := splitOnChar '\n' l

/-- Python `'\n'.join(lines)`. -/
def joinLines (ls : List (List Char)) : List Char := joinSep ['\n'] ls

/-- Fuel-driven worker for `replaceAll`; every step consumes at least one
input character, so fuel `c.length` always suffices. -/
def replaceAllF (p r : List Char) : Nat → List Char → List Char
  | 0, c => c
  | _ + 1, [] => []
  | n + 1, a :: c =>
    if p.isPrefixOf (a :: c) then r ++ replaceAllF p r n (c.drop (p.length - 1))
    else a :: replaceAllF p r n c

/-- Model of `re.subn` with a `re.escape`d (hence literal) pattern `p`: replace every
leftmost non-overlapping occurrence of `p` by `r`.  Escape processing of the
replacement string is not modelled (no replacement used below contains a
backslash). -/
def replaceAll (p r c : List Char) : List Char := replaceAllF p r c.length c

-- ===== placeholder extraction (regex \$\{(.+?)\}|\$(\w+)) =====

/-- Consume characters (any, except a newline, `.` does not cross lines) up
to the first closing brace; returns the consumed body.  `none` when no
closing brace is reachable: the lazy `.+?` then has no way to complete. -/
def takeToBrace : List Char → Option (List Char)
  | [] => none
  | c :: rest =>
    if c = rbrace then some []
    else if c = '\n' then none
    else (takeToBrace rest).map (fun b => c :: b)

/-- The attempt of the braced alternative `\$\{(.+?)\}` on the text after
`${`: the group body (at least one character, lazily up to the first closing
brace) and the number of characters the body and closing brace consume. -/
def bracedAt (rest2 : List Char) : Option (List Char × Nat) :=
  match rest2 with
  | [] => none
  | e :: rest3 =>
    if e = '\n' then none
    else
      match takeToBrace rest3 with
      | some body => some (e :: body, body.length + 2)
      | none => none

/-- Fuel-driven worker for `findPlaceholders`; every step consumes at least
one input character. -/
def findPlaceholdersF : Nat → List Char → List (List Char)
  | 0, _ => []
  | _ + 1, [] => []
  | _ + 1, [_] => []
  | n + 1, c :: d :: rest2 =>
    if c = '$' then
      if d = lbrace then
        match bracedAt rest2 with
        | some pr => pr.1 :: findPlaceholdersF n (rest2.drop pr.2)
        | none => findPlaceholdersF n (d :: rest2)
      else
        let w := (d :: rest2).takeWhile isWordChar
        if w.isEmpty then findPlaceholdersF n (d :: rest2)
        else w :: findPlaceholdersF n ((d :: rest2).drop w.length)
    else findPlaceholdersF n (d :: rest2)

/-- All matches (group contents) of the placeholder pattern
`\$\{(.+?)\}|\$(\w+)`, scanning left to right, non-overlapping, with the
braced alternative tried first at each position (Python `re` semantics). -/
def findPlaceholders (l : List Char) : List (List Char) := findPlaceholdersF l.length l

-- ===== data model =====

/-- One `{"name": ..., "value": ...}` argument dictionary. -/
structure Arg where
  name : List Char
  value : List Char
deriving DecidableEq, Repr

/-- The `ChineseString` dataclass. -/
structure ChineseString where
  text : List Char
  file_path : List Char
  line_number : Nat
  context : List Char
  resource_name : List Char
  translation : List Char
  args : List Arg
  module_name : List Char
deriving DecidableEq, Repr

/-- Model of `Path(file_path).parts` for a relative posix path (empty and `.`
segments do not form parts). -/
def pathParts (p : List Char) : List (List Char) :=
  (splitOnChar '/' p).filter (fun s => !s.isEmpty && !(s == (".".data)))

/-- Model of `__post_init__`: the module name defaults to the first path segment of
`file_path`, or the sentinel `"common"` when the path has no segments. -/
def defaultModuleName (file_path : List Char) : List Char :=
  match pathParts file_path with
  | [] => "common".data
  | part :: _ => part

/-- Model of `ChineseString.unique_id = f"{module_name}:{text}"`. -/
def uniqueId (s : ChineseString) : List Char := s.module_name ++ (":".data) ++ s.text

/-- Model of `"arg" + str(n)`: the synthesized placeholder name `argN`. -/
def argName (n : Nat) : List Char := ("arg".data) ++ (Nat.repr n).data

/-- The loop over `enumerate(placeholder_params)` shared by
`extract_strings_from_file` (lines 157-166) and the derived-args branch of
`replace_strings_in_file_advanced` (lines 579-588): strip each placeholder
expression, skip the blank ones (their index is still consumed), name the
pair by the expression itself when it is a bare identifier and by `argN`
(1-based index) otherwise. -/
def argsFromExprs : Nat → List (List Char) → List Arg
  | _, [] => []
  | i, e :: es =>
    let r := strip e
    if r.isEmpty then argsFromExprs (i + 1) es
    else ⟨if isIdent r then r else argName (i + 1), r⟩ :: argsFromExprs (i + 1) es

/-- The placeholder args constructed for a literal text. -/
def placeholderArgs (text : List Char) : List Arg :=
  argsFromExprs 0 (findPlaceholders text)

-- ===== extractor: per-line scanning =====

/-- After the matched literal part of `println\s*\(`-style patterns:
whitespace then an opening parenthesis. -/
def afterWsParen (l : List Char) : Bool :=
  match l.dropWhile Char.isWhitespace with
  | [] => false
  | c :: _ => c = '('

/-- Model of `re.search` for `lit` followed by `\s*\(` (exclusion patterns
`println\s*\(` and `print\s*\(`). -/
def searchLitThenParen (lit : List Char) : List Char → Bool
  | [] => false
  | c :: rest =>
    (lit.isPrefixOf (c :: rest) && afterWsParen ((c :: rest).drop lit.length))
      || searchLitThenParen lit rest

/-- The `[dwiev]\s*\(` tail of the `Log\.[dwiev]\s*\(` exclusion pattern. -/
def logTail (l : List Char) : Bool :=
  match l with
  | [] => false
  | d :: rest => (d = 'd' || d = 'w' || d = 'i' || d = 'e' || d = 'v') && afterWsParen rest

/-- Model of `re.search(r"Log\.[dwiev]\s*\(", line)`. -/
def searchLogCall : List Char → Bool
  | [] => false
  | c :: rest =>
    (("Log.".data).isPrefixOf (c :: rest) && logTail ((c :: rest).drop 4)) || searchLogCall rest

/-- Is the head character a `\w` character? -/
def headIsWord (l : List Char) : Bool :=
  match l with
  | [] => false
  | d :: _ => isWordChar d

/-- Model of `re.search(r"ResStrings\.\w+(?:\.format\([^)]*\))?", line)`: a match
exists iff `ResStrings.` occurs followed by at least one word character (the
optional `.format(...)` group never affects whether a match exists). -/
def searchResStrings : List Char → Bool
  | [] => false
  | c :: rest =>
    (("ResStrings.".data).isPrefixOf (c :: rest) && headIsWord ((c :: rest).drop 11))
      || searchResStrings rest

/-- Model of `re.search(r"^\s*//.*", line)`. -/
def exclComment (l : List Char) : Bool :=
  ("//".data).isPrefixOf (l.dropWhile Char.isWhitespace)

/-- Model of `re.search(r"^\s*/\*.*?\*/", line)`: leading whitespace, `/*`, then a
`*/` later in the (single) line. -/
def exclBlockComment (l : List Char) : Bool :=
  let r := l.dropWhile Char.isWhitespace
  (("/*".data).isPrefixOf r) && decide ((("*/".data)) <:+: r.drop 2)

/-- A line matching any of the five `exclude_patterns`. -/
def excludeLine (l : List Char) : Bool :=
  exclComment l || exclBlockComment l || searchLogCall l
    || searchLitThenParen ("println".data) l || searchLitThenParen ("print".data) l

/-- Model of `re.finditer` of the literal pattern `q([^q]*CJK[^q]*)q` (the
`chinese_patterns` entry for quote character `q`) over one line: at a quote,
the candidate group runs to the next quote; a candidate without a CJK
character fails, and scanning resumes at its closing quote. -/
def scanQuotedF (q : Char) : Nat → List Char → List (List Char)
  | 0, _ => []
  | _ + 1, [] => []
  | n + 1, c :: rest =>
    if c = q then
      let x := rest.takeWhile (fun d => d ≠ q)
      match rest.drop x.length with
      | [] => []
      | _ :: after =>
        if containsChinese x then x :: scanQuotedF q n after
        else scanQuotedF q n (rest.drop x.length)
    else scanQuotedF q n rest

/-- The scanner above, with fuel `l.length` (each step consumes at least one
character). -/
def scanQuoted (q : Char) (l : List Char) : List (List Char) := scanQuotedF q l.length l

/-- The per-line matches, double-quote pattern first then single-quote
pattern, as the two `chinese_patterns` are applied in order. -/
def lineStrings (l : List Char) : List (List Char) :=
  scanQuoted '"' l ++ scanQuoted squote l

/-- Model of `'\n'.join(lines[max(0, i-3) : min(len(lines), i+2)])` for the 1-based
line number `i`. -/
def contextOf (lines : List (List Char)) (i : Nat) : List Char :=
  let s := i - 3
  let e := min lines.length (i + 2)
  joinLines ((lines.drop s).take (e - s))

/-- The `ChineseString(...)` constructed for a match, with `__post_init__`
applied (empty args default handled by construction; module name from the
path). -/
def mkExtractedString (path : List Char) (i : Nat) (lines : List (List Char))
    (t : List Char) : ChineseString :=
  ⟨t, path, i, contextOf lines i, [], [], placeholderArgs t, defaultModuleName path⟩

/-- Model of `Path(p).suffix`: `'.' + ext` from the last component's last dot, when
that dot is neither the first nor the last character of the component. -/
def pathSuffix (p : List Char) : List Char :=
  let name := (splitOnChar '/' p).getLastD []
  let rev := name.reverse
  let ext := rev.takeWhile (fun d => d ≠ '.')
  match rev.drop ext.length with
  | [] => []
  | _ :: before =>
    if ext.isEmpty then []
    else if before.isEmpty then []
    else '.' :: ext.reverse

/-- Model of `extract_strings_from_file`, as a function of the file's (relative) path
and decoded content: gate on the `.kt` suffix, split into lines, skip
excluded lines and lines that already reference `ResStrings`, collect the
quoted CJK literals of the remaining lines and build one record per literal
that is neither ignored nor already a known resource text. -/
def extractStringsFromFile (path content : List Char)
    (ignored existingTexts : List (List Char)) : List ChineseString :=
  if pathSuffix path ≠ (".kt".data) then []
  else
    let lines := splitLines content
    lines.enum.flatMap (fun pr =>
      let i := pr.1 + 1
      let line := pr.2
      if excludeLine line then []
      else if searchResStrings line then []
      else (lineStrings line).filterMap (fun t =>
        if !(containsChinese t) then none
        else if t ∈ ignored then none
        else if t ∈ existingTexts then none
        else some (mkExtractedString path i lines t)))

/-- First-occurrence deduplication keyed by `key`, with an accumulator of
already-seen keys: the `unique_strings` insertion-ordered dict loop of
`extract_all_strings` (and the `visited` set of its traversal). -/
def dedupByKey {α : Type} (key : α → List Char) : List α → List (List Char) → List α
  | [], _ => []
  | s :: rest, seen =>
    if key s ∈ seen then dedupByKey key rest seen
    else s :: dedupByKey key rest (key s :: seen)

/-- The build/cache directory names always excluded from traversal. -/
def buildDirNames : List (List Char) :=
  ["build".data, ".gradle".data, "node_modules".data]

/-- A path having a `build`/`.gradle`/`node_modules` segment. -/
def hasBuildSegment (p : List Char) : Bool :=
  (splitOnChar '/' p).any (fun part => part ∈ buildDirNames)

/-- The concatenated per-file extraction results of `extract_all_strings`'s
traversal, in traversal order, for a traversal that visits the given
(path, content) files: duplicate paths are visited once, build directories
skipped. -/
def allStringsRaw (files : List (List Char × List Char))
    (ignored existingTexts : List (List Char)) : List ChineseString :=
  ((dedupByKey Prod.fst files []).filter (fun f => !(hasBuildSegment f.1))).flatMap
    (fun f => extractStringsFromFile f.1 f.2 ignored existingTexts)

/-- Model of `extract_all_strings`: the traversal's records deduplicated by
`unique_id`, keeping the first discovery of each id. -/
def extractAllStrings (files : List (List Char × List Char))
    (ignored existingTexts : List (List Char)) : List ChineseString :=
  dedupByKey uniqueId (allStringsRaw files ignored existingTexts) []

-- ===== resource merger (generate_strings_xml_with_template) =====

/-- Model of `re.sub(r"\$" + re.escape(v) + r"\b", "$" + n, text)` for an identifier
`v`: replace `$v` by `$n` when the next character is not a word character
(the trailing `\b`; `v` ends in a word character since it is an
identifier). -/
def replaceDollarIdentF (v n : List Char) : Nat → List Char → List Char
  | 0, c => c
  | _ + 1, [] => []
  | f + 1, c :: rest =>
    if (c = '$') && v.isPrefixOf rest && !(headIsWord (rest.drop v.length)) then
      ('$' :: n) ++ replaceDollarIdentF v n f (rest.drop v.length)
    else c :: replaceDollarIdentF v n f rest

/-- The substitution above, with fuel `l.length`. -/
def replaceDollarIdent (v n l : List Char) : List Char := replaceDollarIdentF v n l.length l

/-- Model of `"${" + x + "}"`. -/
def bracedForm (x : List Char) : List Char := ('$' :: lbrace :: x) ++ [rbrace]

/-- Model of `StringReplacer._normalize_placeholders`. -/
def normalizePlaceholders (text : List Char) (args : List Arg) : List Char :=
  if text.isEmpty then text
  else args.foldl (fun acc it =>
    let n := strip it.name
    let v := strip it.value
    if n.isEmpty || v.isEmpty then acc
    else
      let acc1 := replaceAll (bracedForm v) (bracedForm n) acc
      if isIdent v then replaceDollarIdent v n acc1 else acc1) text

/-- Model of `_default_format_xml_text`. -/
def defaultFormatXmlText (text : List Char) (args : List Arg) : List Char :=
  if args.isEmpty then text else normalizePlaceholders text args

/-- The text serialized for a newly appended entry: the source text for
`zh`, the translation otherwise, run through the (default) XML text
formatting hook when the record has args. -/
def entryText (lang : List Char) (s : ChineseString) : List Char :=
  let base := if lang ≠ ("zh".data) then s.translation else s.text
  if s.args.isEmpty then base else defaultFormatXmlText base s.args

/-- Outcome of `generate_strings_xml_with_template`: the resulting entry
list (in document order), whether `tree.write` executed, and the function's
return value. -/
structure MergeResult where
  entries : List (List Char × List Char)
  wrote : Bool
  ret : Bool
deriving DecidableEq, Repr

/-- The `to_append` filter: candidates with a resource name not already
among the existing entry names. -/
def mergeToAppend (existingNames : List (List Char)) (strings : List ChineseString) :
    List ChineseString :=
  strings.filter (fun s => !s.resource_name.isEmpty && decide (s.resource_name ∉ existingNames))

/-- Model of `generate_strings_xml_with_template` on a parsed existing file (the list
of its `(name, text)` string elements in document order), with the default
hooks: appends the `to_append` candidates after the existing elements, then
unconditionally serializes (`tree.write` is not guarded by `to_append`) and
returns `True`. -/
def generateStringsXmlWithTemplate (existing : List (List Char × List Char))
    (strings : List ChineseString) (lang : List Char) : MergeResult :=
  let toApp := mergeToAppend (existing.map Prod.fst) strings
  ⟨existing ++ toApp.map (fun s => (s.resource_name, entryText lang s)), true, true⟩

-- ===== source rewriter (replace_strings_in_file_advanced) =====

/-- Model of `_clean_arg_item`. -/
def cleanArgItem (a : Arg) : Option Arg :=
  let n := strip a.name
  let v := strip a.value
  if n.isEmpty then none else some ⟨n, if v.isEmpty then n else v⟩

/-- The args list for a record inside `replace_strings_in_file_advanced`:
caller-supplied args cleaned when present, else derived from the text's
placeholders. -/
def buildArgsList (s : ChineseString) : List Arg :=
  if !s.args.isEmpty then s.args.filterMap cleanArgItem
  else placeholderArgs s.text

/-- Model of `_default_get_replaced_text`. -/
def defaultGetReplacedText (resName : List Char) (args : List Arg) : List Char :=
  if args.isEmpty then ("ResStrings.".data) ++ resName
  else
    let parts := args.map (fun item =>
      let n := if (strip item.name).isEmpty then ("arg".data) else strip item.name
      let v := if (strip item.value).isEmpty then n else strip item.value
      (n ++ (" = (".data) ++ v ++ (").toString()".data)))
    ("ResStrings.".data) ++ resName ++ (".format(".data)
      ++ joinSep (", ".data) parts ++ (")".data)

/-- The replacement expression produced for a record (default hook). -/
def exprOf (s : ChineseString) : List Char :=
  defaultGetReplacedText s.resource_name (buildArgsList s)

/-- The literal pattern `q + text + q`. -/
def quotePat (q : Char) (t : List Char) : List Char := q :: (t ++ [q])

/-- One iteration of the per-record loop: skip records without a resource
name; otherwise run the two `re.subn` passes (double-quote pattern on the
current content, then single-quote pattern on its result), keeping the new
content only when the pattern matched, and report whether any pass
matched. -/
def processRecord (c : List Char) (s : ChineseString) : List Char × Bool :=
  if s.resource_name.isEmpty then (c, false)
  else
    let r := exprOf s
    let p1 := quotePat '"' s.text
    let p2 := quotePat squote s.text
    let c1 := if p1 <:+: c then replaceAll p1 r c else c
    let c2 := if p2 <:+: c1 then replaceAll p2 r c1 else c1
    (c2, decide (p1 <:+: c) || decide (p2 <:+: c1))

/-- Model of `_default_get_import_statements`. -/
def defaultImportLine (moduleName : List Char) : List Char :=
  if moduleName = ("composeApp".data) then
    ("import com.funny.translation.strings.ResStrings".data)
  else
    ("import com.funny.translation.".data) ++ (moduleName.filter (fun d => d ≠ '-'))
      ++ (".strings.ResStrings".data)

/-- Model of `line.strip().startswith('package ')`. -/
def isPkgLine (l : List Char) : Bool := ("package ".data).isPrefixOf (strip l)

/-- Model of `line.strip().startswith('import ')`. -/
def isImpLine (l : List Char) : Bool := ("import ".data).isPrefixOf (strip l)

/-- The index-scanning loop of `_insert_import_once`: the first package line
index and the last import line index (the first package line is diverted
from the import check by the `elif`, but can never be an import line). -/
def scanIdx : List (List Char) → Nat → Option Nat → Option Nat → Option Nat × Option Nat
  | [], _, pkg, imp => (pkg, imp)
  | l :: ls, i, pkg, imp =>
    if pkg.isNone && isPkgLine l then scanIdx ls (i + 1) (some i) imp
    else if isImpLine l then scanIdx ls (i + 1) pkg (some i)
    else scanIdx ls (i + 1) pkg imp

/-- Python `str.rstrip('\n')`. -/
def rstripNl (l : List Char) : List Char :=
  (l.reverse.dropWhile (fun d => d = '\n')).reverse

/-- Python `list.insert(k, x)`. -/
def insertAt {α : Type} (k : Nat) (x : α) (ls : List α) : List α :=
  ls.take k ++ x :: ls.drop k

/-- The insertion index computed by `_insert_import_once`: after the
last import line if any, else after the (first) package line if any, else 0. -/
def importInsertIdx (lines : List (List Char)) : Nat :=
  match (scanIdx lines 0 none none).2, (scanIdx lines 0 none none).1 with
  | some j, _ => j + 1
  | none, some j => j + 1
  | none, none => 0

/-- Model of `_insert_import_once`. -/
def insertImportOnce (content importLine0 : List Char) : List Char :=
  let importLine := if importLine0.getLast? = some '\n' then importLine0
    else importLine0 ++ ['\n']
  if strip importLine <:+: content then content
  else
    let lines := splitLines content
    joinLines (insertAt (importInsertIdx lines) (rstripNl importLine) lines)

/-- Outcome of `replace_strings_in_file_advanced` on one file: the final
content and the return value (`content != original_content`; the file is
written exactly when this is true). -/
structure RewriteResult where
  content : List Char
  modified : Bool
deriving DecidableEq, Repr

/-- The per-record fold step of `replace_strings_in_file_advanced`. -/
def rewriteStep (acc : List Char × Bool) (s : ChineseString) : List Char × Bool :=
  ((processRecord acc.1 s).1, acc.2 || (processRecord acc.1 s).2)

/-- Model of `replace_strings_in_file_advanced` with the default hooks: process each
record in order, then, when any replacement occurred, insert the
module's import line once (only when non-empty and not already a substring of the
content); the file is written, and `True` returned, exactly when the final
content differs from the original. -/
def replaceStringsInFileAdvanced (content : List Char) (strings : List ChineseString)
    (moduleName : List Char) : RewriteResult :=
  let step := strings.foldl rewriteStep (content, false)
  let c1 := step.1
  let c2 := if step.2 then
      let il := defaultImportLine moduleName
      if !il.isEmpty && !(decide (il <:+: c1)) then insertImportOnce c1 il else c1
    else c1
  ⟨c2, decide (c2 ≠ content)⟩

-- ===== error-path models =====

/-- A Python call that either returns or lets an exception propagate. -/
inductive InitOutcome (α : Type) where
  | ok (value : α)
  | raised (msg : List Char)
deriving DecidableEq, Repr

/-- An API endpoint's JSON response: a success payload or a structured
error. -/
inductive ApiResult (α : Type) where
  | ok (value : α)
  | error (msg : List Char)
deriving DecidableEq, Repr

/-- Model of `ChineseStringExtractor.load_ignored_strings`, parameterized by whether
`ignored_strings.json` exists and by the outcome of `json.load` on its
content: an absent file yields the empty set; the body has no exception
handler, so a decode error from malformed content propagates (aborting
`__init__`, which also has none). -/
def loadIgnoredStrings (fileExists : Bool)
    (parsed : InitOutcome (List (List Char))) : InitOutcome (List (List Char)) :=
  if fileExists then
    match parsed with
    | InitOutcome.ok l => InitOutcome.ok l
    | InitOutcome.raised e => InitOutcome.raised e
  else InitOutcome.ok []

/-- The `/api/extract` endpoint for a non-empty `project_path`: no existence
check is performed; `Path.rglob` over a nonexistent root yields no entries,
so the extractor is constructed successfully and extraction succeeds over
the empty file set. -/
def extractApi (rootExists : Bool) (files : List (List Char × List Char))
    (ignored existingTexts : List (List Char)) :
    ApiResult (List ChineseString) :=
  let fs := if rootExists then files else []
  ApiResult.ok (extractAllStrings fs ignored existingTexts)

/-- The root-existence gate of the `/api/save` endpoint (the only caller
that checks the root): a nonexistent root is surfaced as a structured
error. -/
def saveApiRootCheck (rootExists : Bool) : ApiResult Unit :=
  if rootExists then ApiResult.ok () else ApiResult.error ("project root does not exist".data)

/-- The quote characters of a `quotePat`-shaped pattern. -/
def patShape (p : List Char) : Prop :=
  ∃ q₁ T q₂, p = q₁ :: (T ++ [q₂]) ∧ isQuote q₁ ∧ isQuote q₂

/-- Neither quoted pattern of a record's text occurs in the content. -/
def noPat (t : ChineseString) (c : List Char) : Prop :=
  ¬ quotePat '"' t.text <:+: c ∧ ¬ quotePat squote t.text <:+: c

-- ===== concrete instances used by witnesses and counterexamples =====

/-- A record whose caller-supplied placeholder value smuggles a quoted copy
of the record's own text into the generated replacement expression. -/
def cexRecord : ChineseString :=
  ⟨"测试".data, "m/T.kt".data, 1, [], "a".data, [], [⟨"x".data, "\"测试\"".data⟩], "m".data⟩

/-- A one-line file containing the record's text as a quoted literal. -/
def cexContent : List Char := "val x = \"测试\"".data

/-- The file content produced by the first rewrite run on `cexContent`. -/
def cexRun1 : List Char := (replaceStringsInFileAdvanced cexContent [cexRecord] ("m".data)).content

/-- A well-behaved record (no quotes in text, no caller args). -/
def okRecord : ChineseString :=
  ⟨"你好".data, "m/T.kt".data, 1, [], "greeting".data, [], [], "m".data⟩

/-- A two-occurrence file for `okRecord`. -/
def okContent : List Char := "val a = \"你好\"\nval b = \"你好\"".data

/-- An existing resource file with one `greeting` entry. -/
def cexExisting : List (List Char × List Char) := [(("greeting".data), ("你好".data))]

/-- A new batch proposing the already-present name `greeting` with different
text. -/
def cexMergeStrings : List ChineseString :=
  [⟨"Hello2".data, "m/T.kt".data, 1, [], "greeting".data, "Hello2".data, [], "m".data⟩]

/-- Two files of one module containing the same literal. -/
def c4files : List (List Char × List Char) :=
  [(("modA/a.kt".data), ("val x = \"你好\"".data)),
   (("modA/b.kt".data), ("val y = \"你好\"".data))]

/-- The record extracted from the first of `c4files`. -/
def c4rec : ChineseString :=
  mkExtractedString ("modA/a.kt".data) 1 (splitLines ("val x = \"你好\"".data)) ("你好".data)

-- ===== Part 2: general list lemmas =====

/-- An infix of an append is inside the left part, inside the right part, or
straddles the boundary with nonempty pieces on both sides. -/
theorem infix_append_cases {p x y : List Char} (h : p <:+: x ++ y) :
    p <:+: x ∨ p <:+: y ∨ ∃ a b, p = a ++ b ∧ a ≠ [] ∧ b ≠ [] ∧ a <:+ x ∧ b <+: y := by
  obtain ⟨s, t, hst⟩ := h
  rcases List.append_eq_append_iff.1 hst with ⟨a', hx, _⟩ | ⟨c', hsp, hy⟩
  · exact Or.inl ⟨s, a', by rw [hx, List.append_assoc]⟩
  · rcases List.append_eq_append_iff.1 hsp with ⟨a'', hx2, hp2⟩ | ⟨c'', _, hc2⟩
    · by_cases ha : a'' = []
      · subst ha
        simp only [List.nil_append] at hp2
        exact Or.inr (Or.inl ⟨[], t, by rw [hy, hp2]; simp⟩)
      · by_cases hc : c' = []
        · subst hc
          simp only [List.append_nil] at hp2
          exact Or.inl ⟨s, [], by rw [hx2, hp2]; simp⟩
        · exact Or.inr (Or.inr ⟨a'', c', hp2, ha, hc, ⟨s, hx2.symm⟩, ⟨t, hy.symm⟩⟩)
    · refine Or.inr (Or.inl ⟨c'', t, ?_⟩)
      rw [hy, hc2, List.append_assoc]

theorem patShape_quotePat {q : Char} (hq : isQuote q) (t : List Char) :
    patShape (quotePat q t) :=
  ⟨q, t, q, rfl, hq, hq⟩

theorem patShape_ne_nil {p : List Char} (h : patShape p) : p ≠ [] := by
  obtain ⟨q₁, T, q₂, rfl, -, -⟩ := h
  simp

/-- The head of a shaped pattern is a quote. -/
theorem patShape_head {p : List Char} (h : patShape p) :
    ∃ q T, p = q :: T ∧ isQuote q := by
  obtain ⟨q₁, T, q₂, rfl, h₁, -⟩ := h
  exact ⟨q₁, T ++ [q₂], rfl, h₁⟩

/-- A pattern starting with a quote that occurs in `r ++ w`, with `r`
quote-free, occurs in `w`. -/
theorem infix_append_right_of_quote_head {r w p : List Char}
    (hr : quoteFree r) (hp : patShape p) (h : p <:+: r ++ w) : p <:+: w := by
  obtain ⟨q, T, rfl, hq⟩ := patShape_head hp
  rcases infix_append_cases h with h1 | h1 | ⟨a, b, hab, ha, hb, hax, hby⟩
  · exact absurd hq (hr q (h1.subset (List.mem_cons_self _ _)))
  · exact h1
  · exfalso
    cases a with
    | nil => exact ha rfl
    | cons a0 a' =>
      have h0 : a0 = q := by
        have := congrArg (fun l => l.head?) hab
        simpa using this.symm
      subst h0
      exact absurd hq (hr a0 (hax.subset (List.mem_cons_self _ _)))

/-- The last element of a shaped pattern is a quote. -/
theorem patShape_getLast {p : List Char} (h : patShape p) :
    ∃ q, p.getLast? = some q ∧ isQuote q := by
  obtain ⟨q₁, T, q₂, rfl, -, h₂⟩ := h
  refine ⟨q₂, ?_, h₂⟩
  have h1 : q₁ :: (T ++ [q₂]) = (q₁ :: T) ++ [q₂] := by simp
  rw [h1, List.getLast?_concat]

/-- Straddle decomposition of a shaped pattern around a quote-free `r`
places `r` inside the pattern's interior text. -/
theorem straddle_interior {p a r b : List Char} {q₁ : Char} {T : List Char} {q₂ : Char}
    (hp : p = q₁ :: (T ++ [q₂])) (hab : p = a ++ r ++ b) (ha : a ≠ []) (hb : b ≠ []) :
    r <:+: T := by
  obtain ⟨a0, a', rfl⟩ : ∃ a0 a', a = a0 :: a' := by
    cases a with
    | nil => exact absurd rfl ha
    | cons a0 a' => exact ⟨a0, a', rfl⟩
  have hhead : a0 = q₁ := by
    have h9 := congrArg (fun l => l.head?) (hp.symm.trans hab)
    simpa using h9.symm
  rw [hhead] at hab ha
  have hlast : b.getLast? = some q₂ := by
    have h1 : p.getLast? = some q₂ := by
      have h2 : p = (q₁ :: T) ++ [q₂] := by rw [hp]; rfl
      rw [h2, List.getLast?_concat]
    have h3 : p.getLast? = b.getLast? := by
      have h4 : p = ((q₁ :: a') ++ r) ++ b := by rw [hab]
      rw [h4]
      exact List.getLast?_append_of_ne_nil _ hb
    rw [← h3, h1]
  have hbsplit : b = b.dropLast ++ [q₂] :=
    (List.dropLast_append_getLast? q₂ hlast).symm
  have hmid : T ++ [q₂] = (a' ++ r ++ b.dropLast) ++ [q₂] := by
    have h5 := hp.symm.trans hab
    rw [hbsplit] at h5
    have h6 : q₁ :: (T ++ [q₂]) = q₁ :: ((a' ++ r ++ b.dropLast) ++ [q₂]) := by
      rw [h5]
      simp
    exact (List.cons_eq_cons.1 h6).2
  have h7 : T = a' ++ r ++ b.dropLast := List.append_cancel_right hmid
  exact ⟨a', b.dropLast, by rw [h7, List.append_assoc]⟩

/-- Members of a joined list are infixes of the join. -/
theorem joinSep_infix_of_mem {sep : List Char} : ∀ us : List (List Char), ∀ u ∈ us, u <:+: joinSep sep us := by
  intro us
  induction us with
  | nil => intro u hu; cases hu
  | cons u0 us ih =>
    intro u hu
    cases us with
    | nil =>
      rcases List.mem_cons.1 hu with h | h
      · subst h; exact List.infix_rfl
      · cases h
    | cons v us' =>
      rcases List.mem_cons.1 hu with h | h
      · subst h
        show u <:+: u ++ sep ++ joinSep sep (v :: us')
        rw [List.append_assoc]
        exact (List.prefix_append u _).isInfix
      · have h1 := ih u h
        show u <:+: u0 ++ sep ++ joinSep sep (v :: us')
        exact h1.trans (List.suffix_append (u0 ++ sep) _).isInfix

theorem joinSep_cons_head {sep : List Char} (a : Char) (u : List Char) (us : List (List Char)) :
    joinSep sep ((a :: u) :: us) = a :: joinSep sep (u :: us) := by
  cases us with
  | nil => rfl
  | cons v us' => simp [joinSep]

theorem joinSep_cons_of_ne {sep u : List Char} {us : List (List Char)} (h : us ≠ []) :
    joinSep sep (u :: us) = u ++ sep ++ joinSep sep us := by
  cases us with
  | nil => exact absurd rfl h
  | cons v us' => rfl

/-- The head chunk of a join is a prefix of the join. -/
theorem joinSep_head_pre {sep u : List Char} {us : List (List Char)} :
    u <+: joinSep sep (u :: us) := by
  cases us with
  | nil => exact List.prefix_rfl
  | cons v us' =>
    show u <+: u ++ sep ++ joinSep sep (v :: us')
    rw [List.append_assoc]
    exact List.prefix_append _ _

-- ===== Part 2b: segmentation of replaceAll =====

/-- Segmentation of one `re.subn` pass: the input splits into the gap chunks
around the leftmost non-overlapping matches, the output is the same chunks
joined by the replacement, and no gap chunk contains the pattern. -/
theorem segF (p r : List Char) (hp : p ≠ []) :
    ∀ n c, c.length ≤ n →
      ∃ us : List (List Char), us ≠ [] ∧ c = joinSep p us ∧
        replaceAllF p r n c = joinSep r us ∧ ∀ u ∈ us, ¬ p <:+: u := by
  intro n
  induction n with
  | zero =>
    intro c hc
    have : c = [] := List.length_eq_zero.1 (Nat.le_zero.1 hc)
    subst this
    exact ⟨[[]], by simp, rfl, rfl, by
      intro u hu
      simp only [List.mem_singleton] at hu
      subst hu
      rw [List.infix_nil]
      exact hp⟩
  | succ n ih =>
    intro c hc
    match c with
    | [] =>
      exact ⟨[[]], by simp, rfl, rfl, by
        intro u hu
        simp only [List.mem_singleton] at hu
        subst hu
        rw [List.infix_nil]
        exact hp⟩
    | a :: c' =>
      by_cases hpre : p.isPrefixOf (a :: c')
      · have hpfx : p <+: a :: c' := List.isPrefixOf_iff_prefix.1 hpre
        have hdrop : (a :: c').drop p.length = c'.drop (p.length - 1) := by
          match p, hp with
          | p0 :: ptail, _ => simp
        have hdecomp : a :: c' = p ++ c'.drop (p.length - 1) := by
          rw [← hdrop]
          exact (List.prefix_iff_eq_append.1 hpfx).symm
        have hlen : (c'.drop (p.length - 1)).length ≤ n := by
          simp only [List.length_drop]
          simp only [List.length_cons] at hc
          omega
        obtain ⟨us', hne', hcc, hout, hgap⟩ := ih (c'.drop (p.length - 1)) hlen
        refine ⟨[] :: us', by simp, ?_, ?_, ?_⟩
        · rw [joinSep_cons_of_ne hne', List.nil_append, ← hcc]
          exact hdecomp
        · have hstep : replaceAllF p r (n + 1) (a :: c') =
              r ++ replaceAllF p r n (c'.drop (p.length - 1)) := by
            simp [replaceAllF, hpre]
          rw [hstep, hout, joinSep_cons_of_ne hne', List.nil_append]
        · intro u hu
          rcases List.mem_cons.1 hu with h | h
          · subst h
            rw [List.infix_nil]
            exact hp
          · exact hgap u h
      · have hlen : c'.length ≤ n := by
          simp only [List.length_cons] at hc
          omega
        obtain ⟨us', hne', hcc, hout, hgap⟩ := ih c' hlen
        obtain ⟨u0, ustail, rfl⟩ : ∃ u0 ustail, us' = u0 :: ustail := by
          cases us' with
          | nil => exact absurd rfl hne'
          | cons u0 t => exact ⟨u0, t, rfl⟩
        refine ⟨(a :: u0) :: ustail, by simp, ?_, ?_, ?_⟩
        · rw [joinSep_cons_head, ← hcc]
        · have hstep : replaceAllF p r (n + 1) (a :: c') = a :: replaceAllF p r n c' := by
            simp [replaceAllF, hpre]
          rw [hstep, hout, joinSep_cons_head]
        · intro u hu
          rcases List.mem_cons.1 hu with h | h
          · subst h
            rintro ⟨s, t, hst⟩
            match s, hst with
            | [], hst =>
              have hppfx : p <+: a :: u0 := ⟨t, by simpa using hst⟩
              have hu0 : u0 <+: c' := by
                have := @joinSep_head_pre p u0 ustail
                rw [← hcc] at this
                exact this
              have : p <+: a :: c' := hppfx.trans (List.cons_prefix_cons.2 ⟨rfl, hu0⟩)
              rw [← List.isPrefixOf_iff_prefix] at this
              exact absurd this (by simpa using hpre)
            | s0 :: s', hst =>
              have h2 : s0 = a ∧ s' ++ (p ++ t) = u0 := by simpa using hst
              refine hgap u0 (List.mem_cons_self _ _) ⟨s', t, ?_⟩
              rw [List.append_assoc]
              exact h2.2
          · exact hgap u (List.mem_cons_of_mem _ h)

/-- Model of `seg` specialized to `replaceAll` (fuel = length). -/
theorem seg (p r : List Char) (hp : p ≠ []) (c : List Char) :
    ∃ us : List (List Char), us ≠ [] ∧ c = joinSep p us ∧
      replaceAll p r c = joinSep r us ∧ ∀ u ∈ us, ¬ p <:+: u :=
  segF p r hp c.length c (Nat.le_refl _)

/-- A pass of `re.subn` never matches inside the preserved gaps and its
replacements are quote-free, so any shaped pattern occurring in the output
either embeds the replacement inside itself (with slack on both sides) or
already occurred in the input and is not the replaced pattern itself. -/
theorem main_no_new {p r p' c : List Char} (hp : p ≠ []) (hr : quoteFree r)
    (hshape : patShape p') (hocc : p' <:+: replaceAll p r c) :
    (∃ a b, p' = a ++ r ++ b ∧ a ≠ [] ∧ b ≠ []) ∨ (p' ≠ p ∧ p' <:+: c) := by
  obtain ⟨us, hne, hc, hout, hgap⟩ := seg p r hp c
  rw [hout] at hocc
  have hcomb : ∀ us₀ : List (List Char), p' <:+: joinSep r us₀ →
      (∃ a b, p' = a ++ r ++ b ∧ a ≠ [] ∧ b ≠ []) ∨ ∃ u ∈ us₀, p' <:+: u := by
    intro us₀
    induction us₀ with
    | nil =>
      intro h
      rw [show joinSep r ([] : List (List Char)) = [] from rfl, List.infix_nil] at h
      exact absurd h (patShape_ne_nil hshape)
    | cons u0 us₀ ih =>
      intro h
      cases us₀ with
      | nil => exact Or.inr ⟨u0, List.mem_singleton_self _, h⟩
      | cons v us₁ =>
        rw [joinSep_cons_of_ne (by simp)] at h
        rw [List.append_assoc] at h
        rcases infix_append_cases h with h1 | h1 | ⟨a, b, hab, ha, hb, hax, hby⟩
        · exact Or.inr ⟨u0, List.mem_cons_self _ _, h1⟩
        · have h2 : p' <:+: joinSep r (v :: us₁) :=
            infix_append_right_of_quote_head hr hshape h1
          rcases ih h2 with h3 | ⟨u, hu, h3⟩
          · exact Or.inl h3
          · exact Or.inr ⟨u, List.mem_cons_of_mem _ hu, h3⟩
        · obtain ⟨qb, hqb, hqbQ⟩ : ∃ qb, b.getLast? = some qb ∧ isQuote qb := by
            obtain ⟨q, hq1, hq2⟩ := patShape_getLast hshape
            refine ⟨q, ?_, hq2⟩
            rw [← hq1, hab]
            exact (List.getLast?_append_of_ne_nil a hb).symm
          obtain ⟨t', hbt⟩ := hby
          rcases List.append_eq_append_iff.1 hbt with ⟨w, hrw, _⟩ | ⟨w, hbw, _⟩
          · exfalso
            have hmem : qb ∈ r := by
              rw [hrw]
              exact (List.prefix_append b w).subset (List.mem_of_mem_getLast? hqb)
            exact absurd hqbQ (hr _ hmem)
          · by_cases hw : w = []
            · exfalso
              subst hw
              simp only [List.append_nil] at hbw
              have hmem : qb ∈ r := hbw ▸ List.mem_of_mem_getLast? hqb
              exact absurd hqbQ (hr _ hmem)
            · refine Or.inl ⟨a, w, ?_, ha, hw⟩
              rw [hab, hbw, List.append_assoc]

  rcases hcomb us hocc with h | ⟨u, hu, hpu⟩
  · exact Or.inl h
  · right
    constructor
    · rintro rfl
      exact hgap u hu hpu
    · rw [hc]
      exact hpu.trans (joinSep_infix_of_mem us u hu)

-- ===== Part 2c: computation rules for replaceAll =====

/-- Any two sufficient fuels compute the same replacement. -/
theorem replaceAllF_fuel_trans (p r : List Char) :
    ∀ n m c, c.length ≤ n → c.length ≤ m → replaceAllF p r n c = replaceAllF p r m c := by
  intro n
  induction n with
  | zero =>
    intro m c hc _
    have : c = [] := List.length_eq_zero.1 (Nat.le_zero.1 hc)
    subst this
    cases m with
    | zero => rfl
    | succ m => rfl
  | succ n ih =>
    intro m c hc hcm
    match c with
    | [] =>
      cases m with
      | zero => rfl
      | succ m => rfl
    | a :: c' =>
      simp only [List.length_cons] at hc hcm
      match m, hcm with
      | m' + 1, hcm =>
        by_cases hpre : p.isPrefixOf (a :: c')
        · have h1 : replaceAllF p r (n + 1) (a :: c') =
              r ++ replaceAllF p r n (c'.drop (p.length - 1)) := by
            simp [replaceAllF, hpre]
          have h2 : replaceAllF p r (m' + 1) (a :: c') =
              r ++ replaceAllF p r m' (c'.drop (p.length - 1)) := by
            simp [replaceAllF, hpre]
          have hd : (c'.drop (p.length - 1)).length ≤ c'.length := by
            simp [List.length_drop]
          rw [h1, h2, ih m' _ (by omega) (by omega)]
        · have h1 : replaceAllF p r (n + 1) (a :: c') = a :: replaceAllF p r n c' := by
            simp [replaceAllF, hpre]
          have h2 : replaceAllF p r (m' + 1) (a :: c') = a :: replaceAllF p r m' c' := by
            simp [replaceAllF, hpre]
          rw [h1, h2, ih m' c' (by omega) (by omega)]

/-- Any sufficient fuel computes `replaceAll`. -/
theorem replaceAllF_fuel (p r : List Char) :
    ∀ n c, c.length ≤ n → replaceAllF p r n c = replaceAll p r c := by
  intro n c hc
  exact replaceAllF_fuel_trans p r n c.length c hc (Nat.le_refl _)

/-- A content without the pattern is returned unchanged by `re.subn`. -/
theorem replaceAll_no_occ {p r c : List Char} (h : ¬ p <:+: c) : replaceAll p r c = c := by
  unfold replaceAll
  have hgen : ∀ n c₀, ¬ p <:+: c₀ → replaceAllF p r n c₀ = c₀ := by
    intro n
    induction n with
    | zero => intro c₀ _; rfl
    | succ n ih =>
      intro c₀ h₀
      match c₀ with
      | [] => rfl
      | a :: c' =>
        have hpre : p.isPrefixOf (a :: c') = false := by
          rw [Bool.eq_false_iff]
          intro hx
          exact h₀ (List.isPrefixOf_iff_prefix.1 hx).isInfix
        have h' : ¬ p <:+: c' := fun hin => h₀ (List.infix_cons hin)
        simp only [replaceAllF, hpre, Bool.false_eq_true, if_false]
        rw [ih c' h']
  exact hgen c.length c h

/-- Model of `re.subn` copies a pattern-head-free chunk verbatim. -/
theorem replaceAll_skip {p r x w : List Char} {q : Char} (hq : p.head? = some q)
    (hx : ∀ ch ∈ x, ch ≠ q) :
    replaceAll p r (x ++ w) = x ++ replaceAll p r w := by
  obtain ⟨p0, pt, rfl⟩ : ∃ p0 pt, p = p0 :: pt := by
    cases p with
    | nil => cases hq
    | cons p0 pt => exact ⟨p0, pt, rfl⟩
  have hq0 : p0 = q := by simpa using hq
  have hx' : ∀ ch ∈ x, ch ≠ p0 := by
    intro ch hch
    rw [hq0]
    exact hx ch hch
  have hgen : ∀ x₀ n w₀, (∀ ch ∈ x₀, ch ≠ p0) → (x₀ ++ w₀).length ≤ n →
      replaceAllF (p0 :: pt) r n (x₀ ++ w₀) =
        x₀ ++ replaceAllF (p0 :: pt) r (n - x₀.length) w₀ := by
    intro x₀
    induction x₀ with
    | nil => intro n w₀ _ _; simp
    | cons ch x' ihx =>
      intro n w₀ hch hlen
      obtain ⟨m, rfl⟩ : ∃ m, n = m + 1 := by
        refine ⟨n - 1, ?_⟩
        simp only [List.length_cons, List.cons_append] at hlen
        omega
      have hne : (p0 :: pt).isPrefixOf (ch :: (x' ++ w₀)) = false := by
        rw [Bool.eq_false_iff]
        intro hx2
        obtain ⟨t, ht⟩ := List.isPrefixOf_iff_prefix.1 hx2
        have hch0 : p0 = ch := by
          have := congrArg (fun l => l.head?) ht
          simpa using this
        exact hch ch (List.mem_cons_self _ _) hch0.symm
      have hfe : m + 1 - (ch :: x').length = m - x'.length := by
        simp only [List.length_cons]
        omega
      show replaceAllF (p0 :: pt) r (m + 1) (ch :: (x' ++ w₀)) =
        (ch :: x') ++ replaceAllF (p0 :: pt) r (m + 1 - (ch :: x').length) w₀
      rw [hfe]
      simp only [replaceAllF, hne, Bool.false_eq_true, if_false, List.cons_append]
      rw [ihx m w₀ (fun d hd => hch d (List.mem_cons_of_mem _ hd)) ?hl]
      case hl =>
        simp only [List.length_append] at hlen ⊢
        simp only [List.cons_append, List.length_cons] at hlen
        omega
  show replaceAllF (p0 :: pt) r (x ++ w).length (x ++ w) = _
  rw [hgen x (x ++ w).length w hx' (Nat.le_refl _)]
  congr 1
  have h2 : (x ++ w).length - x.length = w.length := by
    simp [List.length_append]
  rw [h2]
  rfl

/-- Model of `re.subn` replaces a match at the current position and continues after
it. -/
theorem replaceAll_match {p r w : List Char} (hp : p ≠ []) :
    replaceAll p r (p ++ w) = r ++ replaceAll p r w := by
  obtain ⟨p0, pt, rfl⟩ : ∃ p0 pt, p = p0 :: pt := by
    cases p with
    | nil => exact absurd rfl hp
    | cons p0 pt => exact ⟨p0, pt, rfl⟩
  have hpre : (p0 :: pt).isPrefixOf (p0 :: (pt ++ w)) = true := by
    rw [List.isPrefixOf_iff_prefix]
    exact ⟨w, by simp⟩
  have hdrop : (pt ++ w).drop ((p0 :: pt).length - 1) = w := by
    simp only [List.length_cons, Nat.add_sub_cancel]
    exact List.drop_left pt w
  have hlen : ((p0 :: pt) ++ w).length = (pt ++ w).length + 1 := by simp
  show replaceAllF (p0 :: pt) r ((p0 :: pt) ++ w).length ((p0 :: pt) ++ w) = _
  rw [hlen]
  have hcast : ((p0 :: pt) ++ w) = p0 :: (pt ++ w) := rfl
  rw [hcast]
  have hstep : replaceAllF (p0 :: pt) r ((pt ++ w).length + 1) (p0 :: (pt ++ w)) =
      r ++ replaceAllF (p0 :: pt) r (pt ++ w).length ((pt ++ w).drop ((p0 :: pt).length - 1)) := by
    simp [replaceAllF, hpre]
  rw [hstep, hdrop]
  congr 1
  exact replaceAllF_fuel _ _ _ _ (by simp)

-- ===== Part 2d: split/join line kit =====

theorem splitOnChar_ne_nil (sep : Char) (l : List Char) : splitOnChar sep l ≠ [] := by
  cases l with
  | nil => simp [splitOnChar]
  | cons c rest =>
    by_cases h : c = sep
    · simp [splitOnChar, h]
    · simp only [splitOnChar, h, if_false]
      cases hsp : splitOnChar sep rest with
      | nil => simp
      | cons a as => simp

theorem mem_splitOnChar_not_sep (sep : Char) :
    ∀ l : List Char, ∀ u ∈ splitOnChar sep l, sep ∉ u := by
  intro l
  induction l with
  | nil =>
    intro u hu
    simp only [splitOnChar, List.mem_singleton] at hu
    subst hu
    simp
  | cons c rest ih =>
    intro u hu
    by_cases h : c = sep
    · simp only [splitOnChar, h, if_true] at hu
      rcases List.mem_cons.1 hu with h1 | h1
      · subst h1; simp
      · exact ih u h1
    · simp only [splitOnChar, h, if_false] at hu
      cases hsp : splitOnChar sep rest with
      | nil => exact absurd hsp (splitOnChar_ne_nil sep rest)
      | cons l0 ls =>
        rw [hsp] at hu
        rcases List.mem_cons.1 hu with h1 | h1
        · subst h1
          intro hmem
          rcases List.mem_cons.1 hmem with h2 | h2
          · exact h h2.symm
          · exact ih l0 (hsp ▸ List.mem_cons_self _ _) h2
        · exact ih u (hsp ▸ List.mem_cons_of_mem _ h1)

/-- Model of `'\n'.join(content.split('\n')) == content`. -/
theorem joinSep_splitOnChar (sep : Char) :
    ∀ l : List Char, joinSep [sep] (splitOnChar sep l) = l := by
  intro l
  induction l with
  | nil => rfl
  | cons c rest ih =>
    by_cases h : c = sep
    · subst h
      simp only [splitOnChar, if_true]
      rw [joinSep_cons_of_ne (splitOnChar_ne_nil c rest), List.nil_append]
      rw [ih]
      rfl
    · simp only [splitOnChar, h, if_false]
      cases hsp : splitOnChar sep rest with
      | nil => exact absurd hsp (splitOnChar_ne_nil sep rest)
      | cons l0 ls =>
        rw [joinSep_cons_head]
        rw [← hsp, ih]

/-- Splitting a separator-free chunk gives back the chunk. -/
theorem splitOnChar_no_sep {sep : Char} {u : List Char} (h : sep ∉ u) :
    splitOnChar sep u = [u] := by
  induction u with
  | nil => rfl
  | cons c u' ih =>
    have hc : ¬ c = sep := fun he => h (he ▸ List.mem_cons_self _ _)
    simp only [splitOnChar, hc, if_false]
    rw [ih (fun hm => h (List.mem_cons_of_mem _ hm))]

/-- Splitting `u ++ sep :: w` with `sep ∉ u` peels off `u`. -/
theorem splitOnChar_append_sep {sep : Char} {u : List Char} (w : List Char) (h : sep ∉ u) :
    splitOnChar sep (u ++ sep :: w) = u :: splitOnChar sep w := by
  induction u with
  | nil => simp [splitOnChar]
  | cons c u' ih =>
    have hc : ¬ c = sep := fun he => h (he ▸ List.mem_cons_self _ _)
    show splitOnChar sep (c :: (u' ++ sep :: w)) = (c :: u') :: splitOnChar sep w
    simp only [splitOnChar, hc, if_false]
    rw [ih (fun hm => h (List.mem_cons_of_mem _ hm))]

/-- Model of `(sep.join(ls)).split(sep) == ls` when no chunk contains the
separator. -/
theorem splitOnChar_joinSep {sep : Char} :
    ∀ ls : List (List Char), ls ≠ [] → (∀ u ∈ ls, sep ∉ u) →
      splitOnChar sep (joinSep [sep] ls) = ls := by
  intro ls
  induction ls with
  | nil => intro h _; exact absurd rfl h
  | cons u us ih =>
    intro _ hfree
    cases us with
    | nil =>
      show splitOnChar sep (joinSep [sep] [u]) = [u]
      exact splitOnChar_no_sep (hfree u (List.mem_cons_self _ _))
    | cons v us' =>
      rw [joinSep_cons_of_ne (by simp)]
      rw [List.append_assoc]
      have : ([sep] ++ joinSep [sep] (v :: us')) = sep :: joinSep [sep] (v :: us') := rfl
      rw [this, splitOnChar_append_sep _ (hfree u (List.mem_cons_self _ _))]
      rw [ih (by simp) (fun w hw => hfree w (List.mem_cons_of_mem _ hw))]

/-- A separator-free nonempty pattern occurring in a join occurs in one of
the chunks. -/
theorem infix_joinSep_single {sep : Char} {p : List Char} (hpn : sep ∉ p) (hne : p ≠ []) :
    ∀ ls : List (List Char), p <:+: joinSep [sep] ls → ∃ u ∈ ls, p <:+: u := by
  intro ls
  induction ls with
  | nil =>
    intro h
    rw [show joinSep [sep] ([] : List (List Char)) = [] from rfl, List.infix_nil] at h
    exact absurd h hne
  | cons u us ih =>
    intro h
    cases us with
    | nil => exact ⟨u, List.mem_singleton_self _, h⟩
    | cons v us' =>
      rw [joinSep_cons_of_ne (by simp), List.append_assoc] at h
      rcases infix_append_cases h with h1 | h1 | ⟨a, b, hab, ha, hb, _, hby⟩
      · exact ⟨u, List.mem_cons_self _ _, h1⟩
      · have h2 : p <:+: joinSep [sep] (v :: us') := by
          rcases infix_append_cases h1 with h3 | h3 | ⟨a, b, hab, ha, hb, hax, _⟩
          · exfalso
            obtain ⟨p0, pt, rfl⟩ : ∃ p0 pt, p = p0 :: pt := by
              cases p with
              | nil => exact absurd rfl hne
              | cons p0 pt => exact ⟨p0, pt, rfl⟩
            have : p0 ∈ [sep] := h3.subset (List.mem_cons_self _ _)
            simp only [List.mem_singleton] at this
            exact hpn (this ▸ List.mem_cons_self _ _)
          · exact h3
          · exfalso
            have ha1 : a = [sep] := by
              obtain ⟨t', hat⟩ := hax
              cases t' with
              | nil => simpa using hat
              | cons x xs =>
                have h9 : x :: (xs ++ a) = [sep] := by simpa using hat
                injection h9 with h9a h9b
                exact absurd (List.append_eq_nil.1 h9b).2 ha
            have : sep ∈ p := by
              rw [hab, ha1]
              exact List.mem_append_left _ (List.mem_cons_self _ _)
            exact hpn this
        rcases ih h2 with ⟨w, hw, hpw⟩
        exact ⟨w, List.mem_cons_of_mem _ hw, hpw⟩
      · exfalso
        obtain ⟨t', hbt⟩ := hby
        obtain ⟨b0, b', rfl⟩ : ∃ b0 b', b = b0 :: b' := by
          cases b with
          | nil => exact absurd rfl hb
          | cons b0 b' => exact ⟨b0, b', rfl⟩
        have hb0 : b0 = sep := by
          have := congrArg (fun l => l.head?) hbt
          simpa using this
        have : sep ∈ p := by
          rw [hab, hb0]
          exact List.mem_append_right _ (List.mem_cons_self _ _)
        exact hpn this

-- ===== Part 2e: insertImportOnce lemmas =====

theorem dropWhile_no_sat {p : Char → Bool} :
    ∀ l : List Char, (∀ c ∈ l, p c = false) → l.dropWhile p = l := by
  intro l h
  cases l with
  | nil => rfl
  | cons c rest =>
    rw [List.dropWhile_cons, h c (List.mem_cons_self _ _)]
    simp

theorem rstripNl_append_nl {il : List Char} (h : '\n' ∉ il) :
    rstripNl (il ++ ['\n']) = il := by
  unfold rstripNl
  have h1 : (il ++ ['\n']).reverse = '\n' :: il.reverse := by simp
  rw [h1, List.dropWhile_cons]
  rw [if_pos (by simp)]
  rw [dropWhile_no_sat il.reverse (by
    intro c hc
    simp only [decide_eq_false_iff_not]
    intro he
    exact h (he ▸ List.mem_reverse.1 hc))]
  exact List.reverse_reverse il

theorem importLine_norm {il : List Char} (h : '\n' ∉ il) :
    (if il.getLast? = some '\n' then il else il ++ ['\n']) = il ++ ['\n'] := by
  rw [if_neg]
  intro hg
  exact h (List.mem_of_mem_getLast? hg)

theorem mem_insertAt {α : Type} {u x : α} {k : Nat} {ls : List α}
    (h : u ∈ insertAt k x ls) : u = x ∨ u ∈ ls := by
  unfold insertAt at h
  rcases List.mem_append.1 h with h1 | h1
  · exact Or.inr (List.take_subset _ _ h1)
  · rcases List.mem_cons.1 h1 with h2 | h2
    · exact Or.inl h2
    · exact Or.inr (List.drop_subset _ _ h2)

theorem insertAt_ne_nil {α : Type} {x : α} {k : Nat} {ls : List α} :
    insertAt k x ls ≠ [] := by
  unfold insertAt
  simp

/-- Model of `_insert_import_once` output, decomposed into lines: the import line is
inserted at the computed index (when its stripped form is not already a
substring of the content). -/
theorem insertImportOnce_split {content il : List Char} (hnl : '\n' ∉ il)
    (hguard : ¬ strip (il ++ ['\n']) <:+: content) :
    splitLines (insertImportOnce content il) =
      insertAt (importInsertIdx (splitLines content)) il (splitLines content) ∧
    insertImportOnce content il =
      joinLines (insertAt (importInsertIdx (splitLines content)) il (splitLines content)) := by
  have hres : insertImportOnce content il =
      joinLines (insertAt (importInsertIdx (splitLines content)) il (splitLines content)) := by
    unfold insertImportOnce
    rw [importLine_norm hnl]
    rw [if_neg hguard]
    rw [rstripNl_append_nl hnl]
  refine ⟨?_, hres⟩
  rw [hres]
  show splitOnChar '\n' (joinSep ['\n'] _) = _
  rw [splitOnChar_joinSep _ insertAt_ne_nil]
  intro u hu
  rcases mem_insertAt hu with rfl | hu'
  · exact hnl
  · exact mem_splitOnChar_not_sep '\n' content u hu'

/-- Inserting a quote-free, newline-free import line introduces no new
occurrence of a shaped newline-free pattern. -/
theorem insertImportOnce_no_new {content il p : List Char}
    (hnl : '\n' ∉ il) (hq : quoteFree il) (hshape : patShape p) (hpnl : '\n' ∉ p)
    (hno : ¬ p <:+: content) : ¬ p <:+: insertImportOnce content il := by
  unfold insertImportOnce
  rw [importLine_norm hnl]
  by_cases hguard : strip (il ++ ['\n']) <:+: content
  · rw [if_pos hguard]
    exact hno
  · rw [if_neg hguard, rstripNl_append_nl hnl]
    intro hocc
    obtain ⟨u, hu, hpu⟩ :=
      infix_joinSep_single hpnl (patShape_ne_nil hshape) _ hocc
    rcases mem_insertAt hu with rfl | hu'
    · obtain ⟨q, T, hpq, hq'⟩ := patShape_head hshape
      have : q ∈ u := hpu.subset (hpq ▸ List.mem_cons_self _ _)
      exact absurd hq' (hq q this)
    · have h2 : u <:+: content := by
        have h3 := @joinSep_infix_of_mem ['\n'] (splitLines content) u hu'
        rw [show joinSep ['\n'] (splitLines content) = content from
          joinSep_splitOnChar '\n' content] at h3
        exact h3
      exact hno (hpu.trans h2)

-- ===== Part 2f: per-record pass lemmas =====

theorem quotePat_ne_nil {q : Char} {t : List Char} : quotePat q t ≠ [] := by
  simp [quotePat]

theorem replaceAll_preserve_noOcc {pat r : List Char} {q : Char} {T' : List Char}
    (hpat : pat ≠ []) (hr : quoteFree r) (hq : isQuote q)
    (hrT : ¬ r <:+: T') {c : List Char} (hno : ¬ quotePat q T' <:+: c) :
    ¬ quotePat q T' <:+: replaceAll pat r c := by
  intro hocc
  rcases main_no_new hpat hr (patShape_quotePat hq T') hocc with ⟨a, b, hab, ha, hb⟩ | ⟨_, h2⟩
  · exact hrT (straddle_interior rfl hab ha hb)
  · exact hno h2

theorem replaceAll_self_clear {q : Char} {T r : List Char} (hq : isQuote q) (hr : quoteFree r)
    (hrT : ¬ r <:+: T) (c : List Char) :
    ¬ quotePat q T <:+: replaceAll (quotePat q T) r c := by
  intro hocc
  rcases main_no_new quotePat_ne_nil hr (patShape_quotePat hq T) hocc with
    ⟨a, b, hab, ha, hb⟩ | ⟨hne, _⟩
  · exact hrT (straddle_interior rfl hab ha hb)
  · exact hne rfl

theorem guarded_preserve {pat r : List Char} {q : Char} {T' : List Char} {c : List Char}
    (hpat : pat ≠ []) (hr : quoteFree r) (hq : isQuote q) (hrT : ¬ r <:+: T')
    (hno : ¬ quotePat q T' <:+: c) :
    ¬ quotePat q T' <:+: (if pat <:+: c then replaceAll pat r c else c) := by
  by_cases hg : pat <:+: c
  · rw [if_pos hg]
    exact replaceAll_preserve_noOcc hpat hr hq hrT hno
  · rw [if_neg hg]
    exact hno

theorem guarded_self_clear {q : Char} {T r : List Char} {c : List Char}
    (hq : isQuote q) (hr : quoteFree r) (hrT : ¬ r <:+: T) :
    ¬ quotePat q T <:+: (if quotePat q T <:+: c then replaceAll (quotePat q T) r c else c) := by
  by_cases hg : quotePat q T <:+: c
  · rw [if_pos hg]
    exact replaceAll_self_clear hq hr hrT c
  · rw [if_neg hg]
    exact hg

theorem isQuote_dq : isQuote '"' := Or.inl rfl

theorem isQuote_sq : isQuote squote := Or.inr rfl

/-- The content component of `processRecord` for a named record. -/
theorem processRecord_content {c : List Char} {s : ChineseString}
    (hname : s.resource_name ≠ []) :
    (processRecord c s).1 =
      (if quotePat squote s.text <:+:
          (if quotePat '"' s.text <:+: c then replaceAll (quotePat '"' s.text) (exprOf s) c else c)
       then replaceAll (quotePat squote s.text) (exprOf s)
          (if quotePat '"' s.text <:+: c then replaceAll (quotePat '"' s.text) (exprOf s) c else c)
       else (if quotePat '"' s.text <:+: c then replaceAll (quotePat '"' s.text) (exprOf s) c
         else c)) := by
  unfold processRecord
  rw [if_neg (by simp [List.isEmpty_iff, hname])]

/-- A record's pass preserves absence of any other record's patterns, as
long as the replacement expression is quote-free and not a substring of the
other record's text. -/
theorem processRecord_preserve {s t : ChineseString} {c : List Char}
    (hq : quoteFree (exprOf s)) (hst : ¬ exprOf s <:+: t.text)
    (h : noPat t c) : noPat t (processRecord c s).1 := by
  by_cases hname : s.resource_name = []
  · unfold processRecord
    rw [if_pos (by simp [List.isEmpty_iff, hname])]
    exact h
  · rw [processRecord_content hname]
    constructor
    · exact guarded_preserve quotePat_ne_nil hq isQuote_dq hst
        (guarded_preserve quotePat_ne_nil hq isQuote_dq hst h.1)
    · exact guarded_preserve quotePat_ne_nil hq isQuote_sq hst
        (guarded_preserve quotePat_ne_nil hq isQuote_sq hst h.2)

/-- After a named record's own pass, neither of its quoted patterns
remains. -/
theorem processRecord_self {s : ChineseString} {c : List Char}
    (hname : s.resource_name ≠ []) (hq : quoteFree (exprOf s))
    (hss : ¬ exprOf s <:+: s.text) : noPat s (processRecord c s).1 := by
  rw [processRecord_content hname]
  constructor
  · exact guarded_preserve quotePat_ne_nil hq isQuote_dq hss
      (guarded_self_clear isQuote_dq hq hss)
  · exact guarded_self_clear isQuote_sq hq hss

/-- When neither pattern of a named record occurs, its pass is the identity
and reports no replacement. -/
theorem processRecord_id {s : ChineseString} {c : List Char}
    (h : s.resource_name ≠ [] → noPat s c) : processRecord c s = (c, false) := by
  by_cases hname : s.resource_name = []
  · unfold processRecord
    rw [if_pos (by simp [List.isEmpty_iff, hname])]
  · obtain ⟨h1, h2⟩ := h hname
    unfold processRecord
    rw [if_neg (by simp [List.isEmpty_iff, hname])]
    simp only [if_neg h1, if_neg h2]
    simp [h1, h2]

/-- Folding the per-record passes over records that are all already cleared
changes nothing and reports no replacement. -/
theorem foldl_rewriteStep_id : ∀ (todo : List ChineseString) (c : List Char) (acc : Bool),
    (∀ s ∈ todo, s.resource_name ≠ [] → noPat s c) →
    todo.foldl rewriteStep (c, acc) = (c, acc) := by
  intro todo
  induction todo with
  | nil => intro c acc _; rfl
  | cons s rest ih =>
    intro c acc h
    have hs : processRecord c s = (c, false) :=
      processRecord_id (h s (List.mem_cons_self _ _))
    show List.foldl rewriteStep (rewriteStep (c, acc) s) rest = (c, acc)
    have hstep : rewriteStep (c, acc) s = (c, acc) := by
      unfold rewriteStep
      rw [hs]
      simp
    rw [hstep]
    exact ih c acc (fun t ht => h t (List.mem_cons_of_mem _ ht))

/-- After the whole per-record fold, every named record of the list has been
cleared: its quoted patterns no longer occur in the content. -/
theorem foldl_rewriteStep_clears (S : List ChineseString)
    (hq : ∀ s ∈ S, quoteFree (exprOf s))
    (hsub : ∀ s ∈ S, ∀ t ∈ S, ¬ exprOf s <:+: t.text) :
    ∀ (todo : List ChineseString), (∀ x ∈ todo, x ∈ S) →
    ∀ (c : List Char) (acc : Bool) (done : List ChineseString),
    (∀ t ∈ done, t ∈ S) →
    (∀ t ∈ done, t.resource_name ≠ [] → noPat t c) →
    (∀ t ∈ S, t ∈ done ∨ t ∈ todo) →
    ∀ t ∈ S, t.resource_name ≠ [] → noPat t (todo.foldl rewriteStep (c, acc)).1 := by
  intro todo
  induction todo with
  | nil =>
    intro _ c acc done _ hdone hcover t ht hn
    rcases hcover t ht with h1 | h1
    · exact hdone t h1 hn
    · cases h1
  | cons s rest ih =>
    intro htodo c acc done hdoneS hdone hcover t ht hn
    have hsS : s ∈ S := htodo s (List.mem_cons_self _ _)
    rw [List.foldl_cons]
    have hres := ih (fun x hx => htodo x (List.mem_cons_of_mem _ hx))
      (processRecord c s).1 (acc || (processRecord c s).2) (s :: done)
      (by
        intro x hx
        rcases List.mem_cons.1 hx with h1 | h1
        · exact h1 ▸ hsS
        · exact hdoneS x h1)
      (by
        intro x hx hxn
        rcases List.mem_cons.1 hx with h1 | h1
        · subst h1
          exact processRecord_self hxn (hq x hsS) (hsub x hsS x hsS)
        · exact processRecord_preserve (hq s hsS) (hsub s hsS x (hdoneS x h1))
            (hdone x h1 hxn))
      (by
        intro x hx
        rcases hcover x hx with h1 | h1
        · exact Or.inl (List.mem_cons_of_mem _ h1)
        · rcases List.mem_cons.1 h1 with h2 | h2
          · exact Or.inl (h2 ▸ List.mem_cons_self _ _)
          · exact Or.inr h2)
      t ht hn
    exact hres

-- ===== Part 2g: whole-rewrite characterization =====

theorem rewriteAdvanced_content (content : List Char) (strings : List ChineseString)
    (moduleName : List Char) :
    (replaceStringsInFileAdvanced content strings moduleName).content =
      (if (strings.foldl rewriteStep (content, false)).2 then
        (if !(defaultImportLine moduleName).isEmpty
            && !(decide (defaultImportLine moduleName <:+:
                  (strings.foldl rewriteStep (content, false)).1))
         then insertImportOnce (strings.foldl rewriteStep (content, false)).1
            (defaultImportLine moduleName)
         else (strings.foldl rewriteStep (content, false)).1)
       else (strings.foldl rewriteStep (content, false)).1) := rfl

theorem rewriteAdvanced_modified (content : List Char) (strings : List ChineseString)
    (moduleName : List Char) :
    (replaceStringsInFileAdvanced content strings moduleName).modified
      = decide ((replaceStringsInFileAdvanced content strings moduleName).content ≠ content) :=
  rfl

theorem nl_not_mem_quotePat {q : Char} {T : List Char} (hq : isQuote q) (hT : '\n' ∉ T) :
    '\n' ∉ quotePat q T := by
  intro hmem
  unfold quotePat at hmem
  rcases List.mem_cons.1 hmem with h1 | h1
  · rcases hq with rfl | rfl
    · exact absurd h1 (by decide)
    · exact absurd h1 (by decide)
  · rcases List.mem_append.1 h1 with h2 | h2
    · exact hT h2
    · rcases hq with rfl | rfl
      · simp only [List.mem_singleton] at h2
        exact absurd h2 (by decide)
      · simp only [List.mem_singleton] at h2
        exact absurd h2 (by decide)

/-- After one full rewrite pass (record passes plus import insertion), no
named record's quoted pattern occurs in the resulting file content. -/
theorem rewriteAdvanced_clears (content : List Char) (strings : List ChineseString)
    (moduleName : List Char)
    (hq : ∀ s ∈ strings, quoteFree (exprOf s))
    (hsub : ∀ s ∈ strings, ∀ t ∈ strings, ¬ exprOf s <:+: t.text)
    (htext : ∀ s ∈ strings, '\n' ∉ s.text)
    (himp : quoteFree (defaultImportLine moduleName))
    (himpnl : '\n' ∉ defaultImportLine moduleName) :
    ∀ t ∈ strings, t.resource_name ≠ [] →
      noPat t (replaceStringsInFileAdvanced content strings moduleName).content := by
  intro t ht hn
  have hclear : noPat t (strings.foldl rewriteStep (content, false)).1 :=
    foldl_rewriteStep_clears strings hq hsub strings (fun x hx => hx) content false []
      (by intro x hx; cases hx) (by intro x hx; cases hx) (fun x hx => Or.inr hx) t ht hn
  rw [rewriteAdvanced_content]
  by_cases hstep : (strings.foldl rewriteStep (content, false)).2
  · rw [if_pos hstep]
    by_cases hins : (!(defaultImportLine moduleName).isEmpty
        && !(decide (defaultImportLine moduleName <:+:
              (strings.foldl rewriteStep (content, false)).1))) = true
    · rw [if_pos hins]
      constructor
      · exact insertImportOnce_no_new himpnl himp (patShape_quotePat isQuote_dq _)
          (nl_not_mem_quotePat isQuote_dq (htext t ht)) hclear.1
      · exact insertImportOnce_no_new himpnl himp (patShape_quotePat isQuote_sq _)
          (nl_not_mem_quotePat isQuote_sq (htext t ht)) hclear.2
    · rw [if_neg hins]
      exact hclear
  · rw [if_neg hstep]
    exact hclear

-- ===== Claim C2 =====

/-- C2 (counterexample): rewriter idempotence fails as universally stated.
With a record whose caller-supplied placeholder value contains a quoted copy
of the record's own text, the second run of
`replace_strings_in_file_advanced` with identical inputs on the first run's
output changes the file again and reports modified. -/
theorem c2_rewrite_idempotent_cex :
    (replaceStringsInFileAdvanced cexRun1 [cexRecord] ("m".data)).modified = true ∧
    (replaceStringsInFileAdvanced cexRun1 [cexRecord] ("m".data)).content ≠ cexRun1 := by
  constructor
  · decide
  · decide

/-- C2 (amended): running `replace_strings_in_file_advanced` a second time
with identical inputs on the first run's output changes nothing and reports
not-modified, provided each record's generated replacement expression and
the module's import line contain no quote characters, no record's
replacement expression occurs inside any record's text, the records' texts
contain no newline, and the import line contains no newline.  (The file is
written exactly when the returned flag is true, so the second run also
performs no write.) -/
theorem c2_rewrite_idempotent_amended (content : List Char) (strings : List ChineseString)
    (moduleName : List Char)
    (hq : ∀ s ∈ strings, quoteFree (exprOf s))
    (hsub : ∀ s ∈ strings, ∀ t ∈ strings, ¬ exprOf s <:+: t.text)
    (htext : ∀ s ∈ strings, '\n' ∉ s.text)
    (himp : quoteFree (defaultImportLine moduleName))
    (himpnl : '\n' ∉ defaultImportLine moduleName) :
    (replaceStringsInFileAdvanced
        (replaceStringsInFileAdvanced content strings moduleName).content
        strings moduleName).content
      = (replaceStringsInFileAdvanced content strings moduleName).content ∧
    (replaceStringsInFileAdvanced
        (replaceStringsInFileAdvanced content strings moduleName).content
        strings moduleName).modified = false := by
  have hfin := rewriteAdvanced_clears content strings moduleName hq hsub htext himp himpnl
  have h2 : strings.foldl rewriteStep
      ((replaceStringsInFileAdvanced content strings moduleName).content, false)
      = ((replaceStringsInFileAdvanced content strings moduleName).content, false) :=
    foldl_rewriteStep_id strings _ false (fun s hs hn => hfin s hs hn)
  have hcontent2 : (replaceStringsInFileAdvanced
      (replaceStringsInFileAdvanced content strings moduleName).content
      strings moduleName).content
      = (replaceStringsInFileAdvanced content strings moduleName).content := by
    rw [rewriteAdvanced_content, h2]
    simp
  refine ⟨hcontent2, ?_⟩
  rw [rewriteAdvanced_modified, hcontent2]
  simp

/-- C2 witness: a concrete well-behaved record and content satisfying the
amended theorem's hypotheses; the second run is a no-op. -/
theorem c2_rewrite_idempotent_witness :
    (replaceStringsInFileAdvanced
        (replaceStringsInFileAdvanced okContent [okRecord] ("m".data)).content
        [okRecord] ("m".data)).content
      = (replaceStringsInFileAdvanced okContent [okRecord] ("m".data)).content ∧
    (replaceStringsInFileAdvanced
        (replaceStringsInFileAdvanced okContent [okRecord] ("m".data)).content
        [okRecord] ("m".data)).modified = false :=
  c2_rewrite_idempotent_amended okContent [okRecord] ("m".data)
    (by decide) (by decide) (by decide) (by decide) (by decide)

-- ===== Claim C5 =====

theorem quoteFree_append {a b : List Char} (ha : quoteFree a) (hb : quoteFree b) :
    quoteFree (a ++ b) := by
  intro c hc
  rcases List.mem_append.1 hc with h | h
  · exact ha c h
  · exact hb c h

theorem not_quotePat_infix_of_quoteFree {q : Char} (hq : isQuote q) {T z : List Char}
    (hz : quoteFree z) : ¬ quotePat q T <:+: z := by
  intro h
  exact absurd hq (hz q (h.subset (List.mem_cons_self _ _)))

theorem quotePat_head (q : Char) (T : List Char) : (quotePat q T).head? = some q := rfl

/-- C5: for every record with a non-empty resource name, the rewriter
replaces every quote-delimited occurrence of the record's exact original
text with the produced reference expression: (i) after the record's pass no
delimited occurrence remains; (ii) a content without any delimited
occurrence is left untouched (in particular, the text occurring inside a
longer quoted literal without its own delimiters triggers nothing) and the
pass reports no replacement; (iii) two delimited occurrences are both
replaced, not just the first.  Matching is literal (the `re.escape`d
pattern), as modelled by `replaceAll`. -/
theorem c5_every_occurrence (c : List Char) (s : ChineseString)
    (hname : s.resource_name ≠ [])
    (hr : quoteFree (exprOf s))
    (hrs : ¬ exprOf s <:+: s.text) :
    (¬ quotePat '"' s.text <:+: (processRecord c s).1 ∧
      ¬ quotePat squote s.text <:+: (processRecord c s).1) ∧
    ((¬ quotePat '"' s.text <:+: c ∧ ¬ quotePat squote s.text <:+: c) →
      processRecord c s = (c, false)) ∧
    (∀ x y z : List Char, quoteFree x → quoteFree y → quoteFree z → quoteFree s.text →
      (processRecord (x ++ quotePat '"' s.text ++ y ++ quotePat '"' s.text ++ z) s).1
        = x ++ exprOf s ++ y ++ exprOf s ++ z) := by
  refine ⟨processRecord_self hname hr hrs, ?_, ?_⟩
  · intro h
    exact processRecord_id (fun _ => h)
  · intro x y z hx hy hz hT
    have hg1 : quotePat '"' s.text <:+:
        x ++ quotePat '"' s.text ++ y ++ quotePat '"' s.text ++ z := by
      refine ⟨x, y ++ quotePat '"' s.text ++ z, ?_⟩
      simp [List.append_assoc]
    have hchar : ∀ w : List Char, quoteFree w → ∀ ch ∈ w, ch ≠ '"' := by
      intro w hw ch hch he
      exact hw ch hch (Or.inl he)
    have e0 : x ++ quotePat '"' s.text ++ y ++ quotePat '"' s.text ++ z
        = x ++ (quotePat '"' s.text ++ (y ++ (quotePat '"' s.text ++ z))) := by
      simp [List.append_assoc]
    have e1 : replaceAll (quotePat '"' s.text) (exprOf s)
        (x ++ quotePat '"' s.text ++ y ++ quotePat '"' s.text ++ z)
        = x ++ (exprOf s ++ (y ++ (exprOf s ++ z))) := by
      rw [e0]
      rw [replaceAll_skip (quotePat_head _ _) (hchar x hx)]
      rw [replaceAll_match quotePat_ne_nil]
      rw [replaceAll_skip (quotePat_head _ _) (hchar y hy)]
      rw [replaceAll_match quotePat_ne_nil]
      rw [replaceAll_no_occ (not_quotePat_infix_of_quoteFree isQuote_dq hz)]
    have hresfree : quoteFree (x ++ (exprOf s ++ (y ++ (exprOf s ++ z)))) :=
      quoteFree_append hx (quoteFree_append hr (quoteFree_append hy (quoteFree_append hr hz)))
    have hng2 : ¬ quotePat squote s.text <:+: (x ++ (exprOf s ++ (y ++ (exprOf s ++ z)))) :=
      not_quotePat_infix_of_quoteFree isQuote_sq hresfree
    rw [processRecord_content hname, if_pos hg1, e1, if_neg hng2]
    simp [List.append_assoc]

/-- C5 witness: a concrete record and a two-occurrence content; both
delimited occurrences are replaced, an embedded occurrence without its own
delimiters would not match. -/
theorem c5_every_occurrence_witness :
    (processRecord
        (("val a = ".data) ++ quotePat '"' ("你好".data) ++ ("; val b = ".data)
          ++ quotePat '"' ("你好".data) ++ (" end".data)) okRecord).1
      = ("val a = ".data) ++ exprOf okRecord ++ ("; val b = ".data)
          ++ exprOf okRecord ++ (" end".data) :=
  (c5_every_occurrence
      (("val a = ".data) ++ quotePat '"' ("你好".data) ++ ("; val b = ".data)
        ++ quotePat '"' ("你好".data) ++ (" end".data)) okRecord
      (by decide) (by decide) (by decide)).2.2
    ("val a = ".data) ("; val b = ".data) (" end".data)
    (by decide) (by decide) (by decide) (by decide)

-- ===== Claim C1 =====

/-- C1: merge non-destructiveness.  The existing entries are preserved
verbatim, in order, as a prefix of the result; every appended entry's name
is absent from the existing names (an incoming entry whose name already
exists is skipped and never overwrites); and for a batch whose resource
names are all non-empty and disjoint from the existing names, the resulting
entries are exactly the existing entries followed by all new entries. -/
theorem c1_merge_nondestructive (existing : List (List Char × List Char))
    (strings : List ChineseString) (lang : List Char) :
    ((generateStringsXmlWithTemplate existing strings lang).entries.take existing.length
        = existing) ∧
    (∀ e ∈ (generateStringsXmlWithTemplate existing strings lang).entries.drop
        existing.length, e.1 ∉ existing.map Prod.fst) ∧
    ((∀ s ∈ strings, s.resource_name ≠ [] ∧ s.resource_name ∉ existing.map Prod.fst) →
      (generateStringsXmlWithTemplate existing strings lang).entries
        = existing ++ strings.map (fun s => (s.resource_name, entryText lang s))) := by
  refine ⟨?_, ?_, ?_⟩
  · show (existing ++ _).take existing.length = existing
    exact List.take_left _ _
  · show ∀ e ∈ (existing ++ (mergeToAppend (existing.map Prod.fst) strings).map
        (fun s => (s.resource_name, entryText lang s))).drop existing.length, _
    rw [List.drop_left]
    intro e he
    obtain ⟨s, hs, rfl⟩ := List.mem_map.1 he
    have hf := List.mem_filter.1 hs
    have := hf.2
    simp only [Bool.and_eq_true, decide_eq_true_eq] at this
    exact this.2
  · intro h
    show existing ++ _ = existing ++ _
    congr 1
    have hfil : mergeToAppend (existing.map Prod.fst) strings = strings := by
      unfold mergeToAppend
      rw [List.filter_eq_self]
      intro s hs
      obtain ⟨h1, h2⟩ := h s hs
      simp only [Bool.and_eq_true, decide_eq_true_eq, Bool.not_eq_true']
      constructor
      · simp [List.isEmpty_iff, h1]
      · simpa using h2
    rw [hfil]

/-- C1 witness: a concrete disjoint merge appends the new entry and keeps
the existing entry untouched. -/
theorem c1_merge_nondestructive_witness :
    (generateStringsXmlWithTemplate cexExisting
        [⟨"再见".data, "m/T.kt".data, 1, [], "bye".data, "Bye".data, [], "m".data⟩]
        ("en".data)).entries
      = cexExisting ++ [(("bye".data), ("Bye".data))] :=
  (c1_merge_nondestructive cexExisting
      [⟨"再见".data, "m/T.kt".data, 1, [], "bye".data, "Bye".data, [], "m".data⟩]
      ("en".data)).2.2 (by decide)

-- ===== Claim C3 =====

/-- C3 (counterexample): when every candidate's name already exists, the
appended set is empty, yet `generate_strings_xml_with_template` still
serializes the document (`tree.write` is unconditional) and returns `True`
— it does not report not-modified. -/
theorem c3_merge_noop_cex :
    mergeToAppend (cexExisting.map Prod.fst) cexMergeStrings = [] ∧
    (generateStringsXmlWithTemplate cexExisting cexMergeStrings ("en".data)).wrote = true ∧
    (generateStringsXmlWithTemplate cexExisting cexMergeStrings ("en".data)).ret = true := by
  refine ⟨by decide, by decide, by decide⟩

/-- C3 (amended): when the appended set is empty the entry list is left
exactly unchanged (nothing added, removed or altered), but the file is
still written (re-serialized) and the function still returns `True`. -/
theorem c3_merge_noop_amended (existing : List (List Char × List Char))
    (strings : List ChineseString) (lang : List Char)
    (h : mergeToAppend (existing.map Prod.fst) strings = []) :
    (generateStringsXmlWithTemplate existing strings lang).entries = existing ∧
    (generateStringsXmlWithTemplate existing strings lang).wrote = true ∧
    (generateStringsXmlWithTemplate existing strings lang).ret = true := by
  unfold generateStringsXmlWithTemplate
  rw [h]
  exact ⟨by simp, rfl, rfl⟩

/-- C3 witness: the amended statement at the concrete duplicate-name
batch. -/
theorem c3_merge_noop_witness :
    (generateStringsXmlWithTemplate cexExisting cexMergeStrings ("en".data)).entries
      = cexExisting ∧
    (generateStringsXmlWithTemplate cexExisting cexMergeStrings ("en".data)).wrote = true ∧
    (generateStringsXmlWithTemplate cexExisting cexMergeStrings ("en".data)).ret = true :=
  c3_merge_noop_amended cexExisting cexMergeStrings ("en".data) (by decide)

-- ===== dedup lemmas and Claim C4 =====

theorem dedupByKey_key_not_seen {α : Type} (key : α → List Char) :
    ∀ (l : List α) (seen : List (List Char)) (s : α),
      s ∈ dedupByKey key l seen → key s ∉ seen := by
  intro l
  induction l with
  | nil => intro seen s h; cases h
  | cons a rest ih =>
    intro seen s h
    unfold dedupByKey at h
    by_cases ha : key a ∈ seen
    · rw [if_pos ha] at h
      exact ih seen s h
    · rw [if_neg ha] at h
      rcases List.mem_cons.1 h with h1 | h1
      · subst h1; exact ha
      · have := ih (key a :: seen) s h1
        intro hmem
        exact this (List.mem_cons_of_mem _ hmem)

theorem dedupByKey_pairwise {α : Type} (key : α → List Char) :
    ∀ (l : List α) (seen : List (List Char)),
      (dedupByKey key l seen).Pairwise (fun a b => key a ≠ key b) := by
  intro l
  induction l with
  | nil => intro seen; exact List.Pairwise.nil
  | cons a rest ih =>
    intro seen
    unfold dedupByKey
    by_cases ha : key a ∈ seen
    · rw [if_pos ha]
      exact ih seen
    · rw [if_neg ha]
      refine List.Pairwise.cons ?_ (ih (key a :: seen))
      intro b hb he
      have := dedupByKey_key_not_seen key rest (key a :: seen) b hb
      exact this (he ▸ List.mem_cons_self _ _)

theorem dedupByKey_find {α : Type} (key : α → List Char) :
    ∀ (l : List α) (seen : List (List Char)) (s : α),
      s ∈ dedupByKey key l seen →
      l.find? (fun x => key x == key s) = some s := by
  intro l
  induction l with
  | nil => intro seen s h; cases h
  | cons a rest ih =>
    intro seen s h
    unfold dedupByKey at h
    by_cases ha : key a ∈ seen
    · rw [if_pos ha] at h
      have hseen := dedupByKey_key_not_seen key rest seen s h
      have hne : key a ≠ key s := fun he => hseen (he ▸ ha)
      rw [List.find?_cons_of_neg _ (by simpa using hne)]
      exact ih seen s h
    · rw [if_neg ha] at h
      rcases List.mem_cons.1 h with h1 | h1
      · subst h1
        rw [List.find?_cons_of_pos _ (by simp)]
      · have hseen := dedupByKey_key_not_seen key rest (key a :: seen) s h1
        have hne : key a ≠ key s := fun he => hseen (he ▸ List.mem_cons_self _ _)
        rw [List.find?_cons_of_neg _ (by simpa using hne)]
        exact ih (key a :: seen) s h1

theorem dedupByKey_cover {α : Type} (key : α → List Char) :
    ∀ (l : List α) (seen : List (List Char)) (s : α), s ∈ l →
      key s ∈ seen ∨ ∃ t ∈ dedupByKey key l seen, key t = key s := by
  intro l
  induction l with
  | nil => intro seen s h; cases h
  | cons a rest ih =>
    intro seen s h
    unfold dedupByKey
    rcases List.mem_cons.1 h with h1 | h1
    · subst h1
      by_cases ha : key s ∈ seen
      · exact Or.inl ha
      · rw [if_neg ha]
        exact Or.inr ⟨s, List.mem_cons_self _ _, rfl⟩
    · by_cases ha : key a ∈ seen
      · rw [if_pos ha]
        exact ih seen s h1
      · rw [if_neg ha]
        rcases ih (key a :: seen) s h1 with h2 | ⟨t, ht, hte⟩
        · rcases List.mem_cons.1 h2 with h3 | h3
          · exact Or.inr ⟨a, List.mem_cons_self _ _, h3.symm⟩
          · exact Or.inl h3
        · exact Or.inr ⟨t, List.mem_cons_of_mem _ ht, hte⟩

/-- C4: extraction uniqueness and first-discovery-wins.  In the collection
returned by `extract_all_strings`, any two distinct records have distinct
`unique_id`s; every returned record is the first record with its
`unique_id` in the traversal's discovery order; every discovered record's
`unique_id` is represented; and `unique_id` is `module_name ++ ":" ++
text`. -/
theorem c4_extract_unique (files : List (List Char × List Char))
    (ignored existingTexts : List (List Char)) :
    ((extractAllStrings files ignored existingTexts).Pairwise
        (fun a b => uniqueId a ≠ uniqueId b)) ∧
    (∀ s ∈ extractAllStrings files ignored existingTexts,
        (allStringsRaw files ignored existingTexts).find?
          (fun x => uniqueId x == uniqueId s) = some s) ∧
    (∀ s ∈ allStringsRaw files ignored existingTexts,
        ∃ t ∈ extractAllStrings files ignored existingTexts, uniqueId t = uniqueId s) ∧
    (∀ s : ChineseString, uniqueId s = s.module_name ++ (":".data) ++ s.text) := by
  refine ⟨?_, ?_, ?_, fun s => rfl⟩
  · exact dedupByKey_pairwise uniqueId _ []
  · intro s hs
    exact dedupByKey_find uniqueId _ [] s hs
  · intro s hs
    rcases dedupByKey_cover uniqueId (allStringsRaw files ignored existingTexts) [] s hs with
      h | h
    · cases h
    · exact h

/-- C4 witness: with the same text in two files of one module, the result
keeps exactly the first-discovered record. -/
theorem c4_extract_unique_witness :
    (allStringsRaw c4files [] []).find? (fun x => uniqueId x == uniqueId c4rec)
      = some c4rec :=
  (c4_extract_unique c4files [] []).2.1 c4rec (by decide)

-- ===== Claim C6 =====

theorem argsFromExprs_values : ∀ (es : List (List Char)) (i : Nat),
    (argsFromExprs i es).map Arg.value = (es.map strip).filter (fun e => !e.isEmpty) := by
  intro es
  induction es with
  | nil => intro i; rfl
  | cons e es ih =>
    intro i
    unfold argsFromExprs
    by_cases he : (strip e).isEmpty
    · rw [if_pos he]
      simp only [List.map_cons, List.filter_cons, he]
      simp only [Bool.not_true, Bool.false_eq_true, if_false]
      exact ih (i + 1)
    · rw [if_neg he]
      simp only [List.map_cons, List.filter_cons]
      rw [show (!(strip e).isEmpty) = true by simp [he]]
      simp only [if_true]
      rw [ih (i + 1)]

theorem argsFromExprs_naming : ∀ (es : List (List Char)) (i j : Nat) (e : List Char),
    es.get? j = some e → strip e ≠ [] →
    (⟨if isIdent (strip e) then strip e else argName (i + j + 1), strip e⟩ : Arg)
      ∈ argsFromExprs i es := by
  intro es
  induction es with
  | nil => intro i j e h _; cases h
  | cons e0 es ih =>
    intro i j e h hne
    cases j with
    | zero =>
      have he : e0 = e := by simpa using h
      subst he
      unfold argsFromExprs
      rw [if_neg (by simpa [List.isEmpty_iff] using hne)]
      exact List.mem_cons_self _ _
    | succ j =>
      have h' : es.get? j = some e := by simpa using h
      have hmem := ih (i + 1) j e h' hne
      have harith : i + 1 + j + 1 = i + (j + 1) + 1 := by omega
      rw [harith] at hmem
      unfold argsFromExprs
      by_cases he0 : (strip e0).isEmpty
      · rw [if_pos he0]
        exact hmem
      · rw [if_neg he0]
        exact List.mem_cons_of_mem _ hmem

theorem argsFromExprs_names_shape : ∀ (es : List (List Char)) (i : Nat),
    ∀ a ∈ argsFromExprs i es,
      (isIdent a.value = true ∧ a.name = a.value) ∨
      (isIdent a.value = false ∧ ∃ j, a.name = argName (j + 1)) := by
  intro es
  induction es with
  | nil => intro i a h; cases h
  | cons e es ih =>
    intro i a h
    unfold argsFromExprs at h
    by_cases he : (strip e).isEmpty
    · rw [if_pos he] at h
      exact ih (i + 1) a h
    · rw [if_neg he] at h
      rcases List.mem_cons.1 h with h1 | h1
      · subst h1
        by_cases hid : isIdent (strip e)
        · exact Or.inl ⟨hid, by simp [hid]⟩
        · refine Or.inr ⟨by simpa using hid, i, ?_⟩
          simp [hid]
      · exact ih (i + 1) a h1

/-- C6: placeholder argument construction.  The record's placeholder args
are, in order of appearance, one `{name, value}` pair per non-blank
placeholder of the text (both the braced `${expr}` and the bare `$ident`
forms are recognized by `findPlaceholders`); the value is the placeholder
expression (stripped); the name is that expression when it is a bare
identifier `[A-Za-z_][A-Za-z0-9_]*`, else the synthesized `argN` with `N`
the placeholder's 1-based position in order of appearance. -/
theorem c6_placeholder_args (text : List Char) :
    ((placeholderArgs text).map Arg.value
        = ((findPlaceholders text).map strip).filter (fun e => !e.isEmpty)) ∧
    (∀ j e, (findPlaceholders text).get? j = some e → strip e ≠ [] →
      (⟨if isIdent (strip e) then strip e else argName (j + 1), strip e⟩ : Arg)
        ∈ placeholderArgs text) ∧
    (∀ a ∈ placeholderArgs text,
      (isIdent a.value = true ∧ a.name = a.value) ∨
      (isIdent a.value = false ∧ ∃ j, a.name = argName (j + 1))) := by
  refine ⟨argsFromExprs_values _ 0, ?_, argsFromExprs_names_shape _ 0⟩
  intro j e h hne
  have := argsFromExprs_naming (findPlaceholders text) 0 j e h hne
  simpa using this

/-- C6 witness: the braced identifier placeholder, the braced non-identifier
placeholder (2nd position, named `arg2`), and the bare form. -/
theorem c6_placeholder_args_witness :
    (⟨argName 2, "1+1".data⟩ : Arg)
      ∈ placeholderArgs ("剩余$\x7bcount\x7d天$\x7b1+1\x7d次".data) :=
  (by decide :
      (⟨if isIdent (strip ("1+1".data)) then strip ("1+1".data) else argName (1 + 1),
        strip ("1+1".data)⟩ : Arg) = (⟨argName 2, "1+1".data⟩ : Arg)) ▸
    (c6_placeholder_args ("剩余$\x7bcount\x7d天$\x7b1+1\x7d次".data)).2.1 1 ("1+1".data)
      (by decide) (by decide)

-- ===== scanIdx lemmas and Claim C7 =====

theorem isPkgLine_not_imp {l : List Char} (h : isPkgLine l = true) : isImpLine l = false := by
  rw [Bool.eq_false_iff]
  intro himp
  unfold isPkgLine at h
  unfold isImpLine at himp
  obtain ⟨t1, ht1⟩ := List.isPrefixOf_iff_prefix.1 h
  obtain ⟨t2, ht2⟩ := List.isPrefixOf_iff_prefix.1 himp
  have : some 'p' = some 'i' := by
    have h1 := congrArg (fun l => l.head?) ht1
    have h2 := congrArg (fun l => l.head?) ht2
    simp only at h1 h2
    rw [← h2] at h1
    simpa using h1
  cases this

/-- The import-index accumulator of the `_insert_import_once` scan records
the last import line. -/
theorem scanIdx_snd_spec : ∀ (ls : List (List Char)) (i : Nat)
    (pkg0 : Option Nat) (imp0 : Option Nat),
    ((scanIdx ls i pkg0 imp0).2 = imp0 ∧ ∀ l ∈ ls, isImpLine l = false) ∨
    (∃ j l, ls.get? j = some l ∧ isImpLine l = true ∧
      (scanIdx ls i pkg0 imp0).2 = some (i + j) ∧
      ∀ j' l', j < j' → ls.get? j' = some l' → isImpLine l' = false) := by
  intro ls
  induction ls with
  | nil =>
    intro i pkg0 imp0
    exact Or.inl ⟨rfl, by intro l h; cases h⟩
  | cons l ls ih =>
    intro i pkg0 imp0
    unfold scanIdx
    by_cases hA : (pkg0.isNone && isPkgLine l) = true
    · rw [if_pos hA]
      have hlimp : isImpLine l = false :=
        isPkgLine_not_imp (Bool.and_eq_true .. ▸ hA).2
      rcases ih (i + 1) (some i) imp0 with ⟨h1, h2⟩ | ⟨j, l', hg, himp, hres, htail⟩
      · refine Or.inl ⟨h1, ?_⟩
        intro x hx
        rcases List.mem_cons.1 hx with rfl | hx'
        · exact hlimp
        · exact h2 x hx'
      · refine Or.inr ⟨j + 1, l', by simpa using hg, himp, by rw [hres]; congr 1; omega, ?_⟩
        intro j' x hj hx
        cases j' with
        | zero => omega
        | succ j'' => exact htail j'' x (by omega) (by simpa using hx)
    · rw [if_neg hA]
      by_cases hB : isImpLine l = true
      · rw [if_pos hB]
        rcases ih (i + 1) pkg0 (some i) with ⟨h1, h2⟩ | ⟨j, l', hg, himp, hres, htail⟩
        · refine Or.inr ⟨0, l, rfl, hB, ?_, ?_⟩
          · rw [h1]
            simp
          · intro j' x hj hx
            cases j' with
            | zero => omega
            | succ j'' => exact h2 x (List.get?_mem (by simpa using hx))
        · refine Or.inr ⟨j + 1, l', by simpa using hg, himp, by rw [hres]; congr 1; omega, ?_⟩
          intro j' x hj hx
          cases j' with
          | zero => omega
          | succ j'' => exact htail j'' x (by omega) (by simpa using hx)
      · rw [if_neg hB]
        rcases ih (i + 1) pkg0 imp0 with ⟨h1, h2⟩ | ⟨j, l', hg, himp, hres, htail⟩
        · refine Or.inl ⟨h1, ?_⟩
          intro x hx
          rcases List.mem_cons.1 hx with rfl | hx'
          · simpa using hB
          · exact h2 x hx'
        · refine Or.inr ⟨j + 1, l', by simpa using hg, himp, by rw [hres]; congr 1; omega, ?_⟩
          intro j' x hj hx
          cases j' with
          | zero => omega
          | succ j'' => exact htail j'' x (by omega) (by simpa using hx)

/-- Once the package index is set it never changes. -/
theorem scanIdx_fst_some : ∀ (ls : List (List Char)) (i j0 : Nat) (imp0 : Option Nat),
    (scanIdx ls i (some j0) imp0).1 = some j0 := by
  intro ls
  induction ls with
  | nil => intro i j0 imp0; rfl
  | cons l ls ih =>
    intro i j0 imp0
    unfold scanIdx
    simp only [Option.isNone_some, Bool.false_and, Bool.false_eq_true, if_false]
    by_cases hB : isImpLine l = true
    · rw [if_pos hB]
      exact ih (i + 1) j0 (some i)
    · rw [if_neg hB]
      exact ih (i + 1) j0 imp0

/-- Starting from an unset package index, the scan records the first package
line. -/
theorem scanIdx_fst_spec : ∀ (ls : List (List Char)) (i : Nat) (imp0 : Option Nat),
    ((scanIdx ls i none imp0).1 = none ∧ ∀ l ∈ ls, isPkgLine l = false) ∨
    (∃ j l, ls.get? j = some l ∧ isPkgLine l = true ∧
      (scanIdx ls i none imp0).1 = some (i + j) ∧
      ∀ j' l', j' < j → ls.get? j' = some l' → isPkgLine l' = false) := by
  intro ls
  induction ls with
  | nil =>
    intro i imp0
    exact Or.inl ⟨rfl, by intro l h; cases h⟩
  | cons l ls ih =>
    intro i imp0
    unfold scanIdx
    by_cases hP : isPkgLine l = true
    · rw [if_pos (by simp [hP])]
      refine Or.inr ⟨0, l, rfl, hP, ?_, ?_⟩
      · rw [scanIdx_fst_some]
        simp
      · intro j' x hj hx
        omega
    · rw [if_neg (by simp [hP])]
      have hstep : ∀ imp1, (scanIdx ls (i + 1) none imp1).1 = none ∧
            (∀ x ∈ ls, isPkgLine x = false) ∨
          (∃ j x, ls.get? j = some x ∧ isPkgLine x = true ∧
            (scanIdx ls (i + 1) none imp1).1 = some ((i + 1) + j) ∧
            ∀ j' x', j' < j → ls.get? j' = some x' → isPkgLine x' = false) :=
        fun imp1 => ih (i + 1) imp1
      by_cases hB : isImpLine l = true
      · rw [if_pos hB]
        rcases hstep (some i) with ⟨h1, h2⟩ | ⟨j, x, hg, hpk, hres, htail⟩
        · refine Or.inl ⟨h1, ?_⟩
          intro y hy
          rcases List.mem_cons.1 hy with rfl | hy'
          · simpa using hP
          · exact h2 y hy'
        · refine Or.inr ⟨j + 1, x, by simpa using hg, hpk, by rw [hres]; congr 1; omega, ?_⟩
          intro j' y hj hy
          cases j' with
          | zero =>
            have hyl : l = y := by simpa using hy
            rw [← hyl]
            simpa using hP
          | succ j'' => exact htail j'' y (by omega) (by simpa using hy)
      · rw [if_neg hB]
        rcases hstep imp0 with ⟨h1, h2⟩ | ⟨j, x, hg, hpk, hres, htail⟩
        · refine Or.inl ⟨h1, ?_⟩
          intro y hy
          rcases List.mem_cons.1 hy with rfl | hy'
          · simpa using hP
          · exact h2 y hy'
        · refine Or.inr ⟨j + 1, x, by simpa using hg, hpk, by rw [hres]; congr 1; omega, ?_⟩
          intro j' y hj hy
          cases j' with
          | zero =>
            have hyl : l = y := by simpa using hy
            rw [← hyl]
            simpa using hP
          | succ j'' => exact htail j'' y (by omega) (by simpa using hy)

/-- C7: import insertion.  If the stripped import line is already a
substring of the content the insertion step leaves the content unchanged;
otherwise the line is inserted exactly once at the computed index:
immediately after the last import line when one exists, else immediately
after the first package line when one exists, else at the top of the
file. -/
theorem c7_import_insertion (content il : List Char) (hne : il ≠ []) (hnl : '\n' ∉ il) :
    (strip (il ++ ['\n']) <:+: content → insertImportOnce content il = content) ∧
    (¬ strip (il ++ ['\n']) <:+: content →
      splitLines (insertImportOnce content il)
          = insertAt (importInsertIdx (splitLines content)) il (splitLines content) ∧
      ((∃ j l, (splitLines content).get? j = some l ∧ isImpLine l = true) →
        ∃ j l, (splitLines content).get? j = some l ∧ isImpLine l = true ∧
          importInsertIdx (splitLines content) = j + 1 ∧
          ∀ j' l', j < j' → (splitLines content).get? j' = some l' → isImpLine l' = false) ∧
      ((∀ l ∈ splitLines content, isImpLine l = false) →
        (∃ j l, (splitLines content).get? j = some l ∧ isPkgLine l = true) →
        ∃ j l, (splitLines content).get? j = some l ∧ isPkgLine l = true ∧
          importInsertIdx (splitLines content) = j + 1 ∧
          ∀ j' l', j' < j → (splitLines content).get? j' = some l' → isPkgLine l' = false) ∧
      ((∀ l ∈ splitLines content, isImpLine l = false) →
        (∀ l ∈ splitLines content, isPkgLine l = false) →
        importInsertIdx (splitLines content) = 0)) := by
  constructor
  · intro hguard
    unfold insertImportOnce
    rw [importLine_norm hnl, if_pos hguard]
  · intro hguard
    refine ⟨(insertImportOnce_split hnl hguard).1, ?_, ?_, ?_⟩
    · intro ⟨j0, l0, hg0, himp0⟩
      rcases scanIdx_snd_spec (splitLines content) 0 none none with ⟨h1, h2⟩ |
        ⟨j, l, hg, himp, hres, htail⟩
      · exact absurd himp0 (by rw [h2 l0 (List.get?_mem hg0)]; simp)
      · refine ⟨j, l, hg, himp, ?_, htail⟩
        unfold importInsertIdx
        rw [hres]
        simp
    · intro hnoimp ⟨j0, l0, hg0, hpkg0⟩
      have hsnd : (scanIdx (splitLines content) 0 none none).2 = none := by
        rcases scanIdx_snd_spec (splitLines content) 0 none none with ⟨h1, _⟩ |
          ⟨j, l, hg, himp, _, _⟩
        · exact h1
        · exact absurd himp (by rw [hnoimp l (List.get?_mem hg)]; simp)
      rcases scanIdx_fst_spec (splitLines content) 0 none with ⟨h1, h2⟩ |
        ⟨j, l, hg, hpkg, hres, htail⟩
      · exact absurd hpkg0 (by rw [h2 l0 (List.get?_mem hg0)]; simp)
      · refine ⟨j, l, hg, hpkg, ?_, htail⟩
        unfold importInsertIdx
        rw [hsnd, hres]
        simp
    · intro hnoimp hnopkg
      have hsnd : (scanIdx (splitLines content) 0 none none).2 = none := by
        rcases scanIdx_snd_spec (splitLines content) 0 none none with ⟨h1, _⟩ |
          ⟨j, l, hg, himp, _, _⟩
        · exact h1
        · exact absurd himp (by rw [hnoimp l (List.get?_mem hg)]; simp)
      have hfst : (scanIdx (splitLines content) 0 none none).1 = none := by
        rcases scanIdx_fst_spec (splitLines content) 0 none with ⟨h1, _⟩ |
          ⟨j, l, hg, hpkg, _, _⟩
        · exact h1
        · exact absurd hpkg (by rw [hnopkg l (List.get?_mem hg)]; simp)
      unfold importInsertIdx
      rw [hsnd, hfst]

/-- C7 witness: inserting after the last existing import line of a concrete
file. -/
theorem c7_import_insertion_witness :
    splitLines (insertImportOnce ("package a.b\nimport x.y\nimport z.w\nval s = 1".data)
        ("import c.m.R".data))
      = insertAt (importInsertIdx (splitLines
          ("package a.b\nimport x.y\nimport z.w\nval s = 1".data)))
        ("import c.m.R".data)
        (splitLines ("package a.b\nimport x.y\nimport z.w\nval s = 1".data)) :=
  ((c7_import_insertion ("package a.b\nimport x.y\nimport z.w\nval s = 1".data)
      ("import c.m.R".data) (by decide) (by decide)).2 (by decide)).1

-- ===== Claim C8 =====

/-- C8 (counterexample): an invocation of `/api/extract` with a nonexistent
root does not surface an error — it returns an empty successful result,
even for a traversal that would otherwise find a record. -/
theorem c8_missing_root_cex :
    extractApi false [(("a/B.kt".data), ("val s = \"你好\"".data))] [] []
      = ApiResult.ok [] ∧
    extractApi true [(("a/B.kt".data), ("val s = \"你好\"".data))] [] []
      ≠ ApiResult.ok [] := by
  exact ⟨by decide, by decide⟩

/-- C8 (amended): only the save endpoint checks the root path.  `/api/save`
surfaces a structured error for a nonexistent root; constructing the
extractor and running extraction over a nonexistent root succeed
(`Path.rglob` over a missing directory yields nothing) and return an empty
record collection. -/
theorem c8_missing_root_amended (files : List (List Char × List Char))
    (ignored existingTexts : List (List Char)) :
    extractApi false files ignored existingTexts = ApiResult.ok [] ∧
    saveApiRootCheck false = ApiResult.error ("project root does not exist".data) ∧
    saveApiRootCheck true = ApiResult.ok () := by
  refine ⟨rfl, rfl, rfl⟩

-- ===== Claim C9 =====

/-- C9 (counterexample): with `ignored_strings.json` present but malformed,
`load_ignored_strings` does not fall back to an empty set — the decode
error propagates and aborts initialization. -/
theorem c9_malformed_ignore_cex :
    loadIgnoredStrings true (InitOutcome.raised ("Expecting value".data))
      ≠ InitOutcome.ok [] ∧
    loadIgnoredStrings true (InitOutcome.raised ("Expecting value".data))
      = InitOutcome.raised ("Expecting value".data) := by
  exact ⟨by decide, rfl⟩

/-- C9 (amended): absence of the ignore file is tolerated (the set is
empty and initialization continues), but malformed content is not a
recoverable condition: `load_ignored_strings` has no exception handler, so
the `json.load` error propagates and extractor initialization aborts. -/
theorem c9_malformed_ignore_amended (p : InitOutcome (List (List Char))) (e : List Char) :
    loadIgnoredStrings false p = InitOutcome.ok [] ∧
    loadIgnoredStrings true (InitOutcome.raised e) = InitOutcome.raised e :=
  ⟨rfl, rfl⟩

-- ===== Claim C10 =====

theorem dedupByKey_subset {α : Type} (key : α → List Char) :
    ∀ (l : List α) (seen : List (List Char)) (s : α), s ∈ dedupByKey key l seen → s ∈ l := by
  intro l
  induction l with
  | nil => intro seen s h; cases h
  | cons a rest ih =>
    intro seen s h
    unfold dedupByKey at h
    by_cases ha : key a ∈ seen
    · rw [if_pos ha] at h
      exact List.mem_cons_of_mem _ (ih seen s h)
    · rw [if_neg ha] at h
      rcases List.mem_cons.1 h with h1 | h1
      · exact h1 ▸ List.mem_cons_self _ _
      · exact List.mem_cons_of_mem _ (ih (key a :: seen) s h1)

/-- C10: the implicit `.kt` file-type gate.  Per-file extraction returns no
records for any file whose suffix is not exactly `.kt`, and therefore
`extract_all_strings` over any file set whose paths all have a non-`.kt`
suffix (e.g. a custom `**/*.kts` pattern list) returns no records,
regardless of file contents. -/
theorem c10_kt_gate (files : List (List Char × List Char))
    (ignored existingTexts : List (List Char))
    (h : ∀ f ∈ files, pathSuffix f.1 ≠ (".kt".data)) :
    (∀ f ∈ files, extractStringsFromFile f.1 f.2 ignored existingTexts = []) ∧
    extractAllStrings files ignored existingTexts = [] := by
  have hfile : ∀ f ∈ files, extractStringsFromFile f.1 f.2 ignored existingTexts = [] := by
    intro f hf
    unfold extractStringsFromFile
    rw [if_pos (h f hf)]
  refine ⟨hfile, ?_⟩
  have hraw : allStringsRaw files ignored existingTexts = [] := by
    unfold allStringsRaw
    rw [List.flatMap_eq_nil_iff]
    intro f hf
    have hf2 : f ∈ files :=
      dedupByKey_subset Prod.fst files [] f (List.mem_filter.1 hf).1
    exact hfile f hf2
  unfold extractAllStrings
  rw [hraw]
  rfl

/-- C10 witness: a `.kts` file containing a target-script literal yields
zero records. -/
theorem c10_kt_gate_witness :
    extractAllStrings [(("m/a.kts".data), ("val s = \"你好\"".data))] [] [] = [] :=
  (c10_kt_gate [(("m/a.kts".data), ("val s = \"你好\"".data))] [] [] (by decide)).2

end StrTool
